import Mathlib

/-!
# Verification of the `workflow` DAG engine

Shallow embedding of the core of the `joelfokou/workflow` repository:
the DAG data model (`internal/dag/dag.go`), Kahn topological sort
(`TopologicalSort`), validation (`Validate`), canonical hashing
(`ComputeHash`), and the executor (`internal/executor`, `Executor.Run`
and `Executor.Resume`) together with the run-store state it manipulates.

The Go `DAG.Tasks` field is a `map[string]*Task` keyed by task name; every
DAG the repository builds (`parseWorkflow`) sets `Task.Name` to the map key.
We embed the map as a `List Task` whose order stands for the (arbitrary)
Go map iteration order; the map invariant "keys are distinct" becomes the
hypothesis `(tasks.map Task.name).Nodup`, and map lookup becomes `find?`
on the name field.
-/

namespace Workflow

/-- Embedding of the Go `dag.Task` struct (`internal/dag/dag.go`).
`Retries` is a Go `int`, so we use `Int`. -/
structure Task where
  name : String
  cmd : String
  dependsOn : List String
  retries : Int
  deriving Repr, DecidableEq, Inhabited

/-- Embedding of the Go `dag.DAG` struct: workflow name plus the task map,
represented as a list of tasks in map-iteration order (see module header). -/
structure DAG where
  name : String
  tasks : List Task
  deriving Repr, DecidableEq, Inhabited

instance {ε α : Type} [DecidableEq ε] [DecidableEq α] : DecidableEq (Except ε α) :=
  fun a b =>
    match a, b with
    | Except.ok x, Except.ok y =>
      if h : x = y then Decidable.isTrue (by rw [h])
      else Decidable.isFalse (fun hc => h (Except.ok.inj hc))
    | Except.error x, Except.error y =>
      if h : x = y then Decidable.isTrue (by rw [h])
      else Decidable.isFalse (fun hc => h (Except.error.inj hc))
    | Except.ok _, Except.error _ => Decidable.isFalse (fun hc => Except.noConfusion hc)
    | Except.error _, Except.ok _ => Decidable.isFalse (fun hc => Except.noConfusion hc)

/-- Go map lookup `d.Tasks[n]` (by the task-name key). -/
def lookupTask (ts : List Task) (n : String) : Option Task :=
  ts.find? (fun t => t.name == n)

/-- The task names of a task list, in iteration order (`for name := range d.Tasks`). -/
def taskNames (ts : List Task) : List String :=
  ts.map Task.name

/-! ## Association-list model of the Go `map[string]int` used for in-degrees -/

/-- Reading a Go `map[string]int`: a missing key reads as `0`. -/
def alGet : List (String × Int) → String → Int
  | [], _ => 0
  | e :: m, k => if e.1 = k then e.2 else alGet m k

/-- Go `m[k]--`: decrement, materialising a missing key at value `-1`. -/
def alDecr : List (String × Int) → String → List (String × Int)
  | [], k => [(k, -1)]
  | e :: m, k => if e.1 = k then (e.1, e.2 - 1) :: m else e :: alDecr m k

/-- Go `m[k]++`: increment, materialising a missing key at value `1`. -/
def alIncr : List (String × Int) → String → List (String × Int)
  | [], k => [(k, 1)]
  | e :: m, k => if e.1 = k then (e.1, e.2 + 1) :: m else e :: alIncr m k

/-! ## `DAG.TopologicalSort` (src/unnamed/part_004)

Kahn's algorithm.  The Go code
1. initialises `inDegree[name] = 0` for every task name,
2. for every task `t` and every `dep` in `t.DependsOn` appends `t.Name`
   to `neighborList[dep]` and increments `inDegree[t.Name]`,
3. sorts each `neighborList` entry,
4. seeds a FIFO queue with the in-degree-0 names in map-iteration order,
5. repeatedly pops the queue head, emits `d.Tasks[n]`, decrements each
   sorted out-neighbor and pushes a neighbor the moment its in-degree
   reaches 0,
6. reports `cycle detected in DAG` iff fewer than `len(d.Tasks)` tasks
   were emitted.
-/

/-- Steps 1 and 2 for `inDegree`: zero-initialise every task name, then one
increment of `inDegree[t.Name]` per dependency occurrence of every task `t`. -/
def buildInDegree (ts : List Task) : List (String × Int) :=
  ts.foldl (fun m t => t.dependsOn.foldl (fun m2 _ => alIncr m2 t.name) m)
    (ts.map (fun t => (t.name, (0 : Int))))

/-- Lexicographic comparison of character lists by code point; for valid
UTF-8 this is exactly the byte order Go's `sort.Strings` uses.  (Lean's own
`String.decidableLT` does not reduce inside the kernel, so the embedding
carries its own executable comparison.) -/
def chListLe : List Char → List Char → Bool
  | [], _ => true
  | _ :: _, [] => false
  | x :: xs, y :: ys =>
    if x.toNat < y.toNat then true
    else if y.toNat < x.toNat then false
    else chListLe xs ys

/-- The string order of `sort.Strings`. -/
def strLeB (a b : String) : Bool :=
  chListLe a.toList b.toList

/-- Steps 2 and 3 for `neighborList[dep]`: one copy of `t.Name` per occurrence
of `dep` in `t.DependsOn`, in task-iteration order, then `sort.Strings`. -/
def neighborsOf (ts : List Task) (dep : String) : List String :=
  List.insertionSort (fun a b => strLeB a b = true)
    (ts.flatMap (fun t => (t.dependsOn.filter (fun d => d == dep)).map (fun _ => t.name)))

/-- The inner `for _, neighbor := range neighborList[n]` body: decrement each
neighbor in order and record (in order) those whose in-degree hits exactly 0;
the Go code appends them to the queue as it goes. Returns the updated
in-degree map and the list of newly enqueued names. -/
def stepNeighbors : List String → List (String × Int) → List (String × Int) × List String
  | [], deg => (deg, [])
  | nb :: more, deg =>
    let deg2 := alDecr deg nb
    let res := stepNeighbors more deg2
    if alGet deg2 nb = 0 then (res.1, nb :: res.2) else res

/-- Termination potential: total remaining positive in-degree. -/
def degSum (m : List (String × Int)) : Nat :=
  (m.map (fun e => e.2.toNat)).sum

theorem alGet_alDecr_self (m : List (String × Int)) (k : String) :
    alGet (alDecr m k) k = alGet m k - 1 := by
  induction m with
  | nil => simp [alGet, alDecr]
  | cons e m ih =>
    by_cases h : e.1 = k
    · simp [alGet, alDecr, h]
    · simp [alGet, alDecr, h, ih]

theorem degSum_cons (e : String × Int) (m : List (String × Int)) :
    degSum (e :: m) = e.2.toNat + degSum m := by
  simp [degSum]

theorem degSum_alDecr_le (m : List (String × Int)) (k : String) :
    degSum (alDecr m k) ≤ degSum m := by
  induction m with
  | nil => simp [degSum, alDecr]
  | cons e m ih =>
    simp only [alDecr]
    by_cases h : e.1 = k
    · rw [if_pos h, degSum_cons, degSum_cons]
      simp only
      omega
    · rw [if_neg h, degSum_cons, degSum_cons]
      omega

theorem degSum_alDecr_of_pos (m : List (String × Int)) (k : String)
    (h : 0 < alGet m k) : degSum (alDecr m k) + 1 ≤ degSum m := by
  induction m with
  | nil => simp [alGet] at h
  | cons e m ih =>
    simp only [alDecr]
    by_cases he : e.1 = k
    · simp only [alGet, if_pos he] at h
      rw [if_pos he, degSum_cons, degSum_cons]
      simp only
      omega
    · simp only [alGet, if_neg he] at h
      rw [if_neg he, degSum_cons, degSum_cons]
      have := ih h
      omega

/-- Each pass over a neighbor list can only convert remaining in-degree into
queue entries: pushes plus leftover potential never exceed the old potential. -/
theorem stepNeighbors_measure (nbs : List String) (deg : List (String × Int)) :
    (stepNeighbors nbs deg).2.length + degSum (stepNeighbors nbs deg).1 ≤ degSum deg := by
  induction nbs generalizing deg with
  | nil => simp [stepNeighbors]
  | cons nb more ih =>
    simp only [stepNeighbors]
    by_cases h : alGet (alDecr deg nb) nb = 0
    · have h1 : alGet deg nb = 1 := by
        have := alGet_alDecr_self deg nb
        omega
      have h2 : degSum (alDecr deg nb) + 1 ≤ degSum deg :=
        degSum_alDecr_of_pos deg nb (by omega)
      have h3 := ih (alDecr deg nb)
      rw [if_pos h]
      simp only [List.length_cons]
      omega
    · have h2 : degSum (alDecr deg nb) ≤ degSum deg := degSum_alDecr_le deg nb
      have h3 := ih (alDecr deg nb)
      rw [if_neg h]
      omega

/-- One queue pop strictly decreases `queue.length + degSum deg`. -/
theorem kahn_measure_step (nbs : List String) (deg : List (String × Int))
    (rest : List String) :
    (rest ++ (stepNeighbors nbs deg).2).length + degSum (stepNeighbors nbs deg).1
      < (rest.length + 1) + degSum deg := by
  have := stepNeighbors_measure nbs deg
  simp only [List.length_append]
  omega

/-- Step 5, fuelled: the Kahn FIFO loop.  Pops the head, emits `d.Tasks[n]`
(the queue only ever holds task names, so the lookup always succeeds;
`Option.toList` mirrors the append of the looked-up task), processes the
sorted neighbor list, and appends the newly ready names to the queue.
The fuel is only a structural-recursion device: `kahnLoop` below supplies
`queue.length + degSum deg + 1`, which `kahn_measure_step` shows is never
exhausted, so the `0`-fuel branch is unreachable. -/
def kahnLoopF (ts : List Task) (nb : String → List String) :
    Nat → List String → List (String × Int) → List Task → List Task
  | _, [], _, acc => acc
  | 0, _ :: _, _, acc => acc
  | fuel + 1, n :: rest, deg, acc =>
    let s := stepNeighbors (nb n) deg
    kahnLoopF ts nb fuel (rest ++ s.2) s.1 (acc ++ (lookupTask ts n).toList)

/-- The Kahn loop (`for len(queue) > 0`) of `TopologicalSort`. -/
def kahnLoop (ts : List Task) (nb : String → List String)
    (queue : List String) (deg : List (String × Int)) (acc : List Task) : List Task :=
  kahnLoopF ts nb (queue.length + degSum deg + 1) queue deg acc

/-- Any two sufficient fuels compute the same result. -/
theorem kahnLoopF_fuel_irrel (ts : List Task) (nb : String → List String) :
    ∀ (f1 : Nat) (f2 : Nat) (queue : List String) (deg : List (String × Int))
      (acc : List Task), queue.length + degSum deg < f1 →
      queue.length + degSum deg < f2 →
      kahnLoopF ts nb f1 queue deg acc = kahnLoopF ts nb f2 queue deg acc := by
  intro f1
  induction f1 with
  | zero =>
    intro f2 queue deg acc h1 _
    omega
  | succ g1 ih =>
    intro f2 queue deg acc h1 h2
    match queue with
    | [] =>
      match f2 with
      | 0 => rfl
      | g2 + 1 => rfl
    | n :: rest =>
      match f2 with
      | 0 => omega
      | g2 + 1 =>
        rw [kahnLoopF, kahnLoopF]
        have hm := kahn_measure_step (nb n) deg rest
        rw [List.length_cons] at h1 h2
        exact ih g2 _ _ _ (by omega) (by omega)

/-- Unfolding `kahnLoop` on the empty queue. -/
theorem kahnLoop_nil (ts : List Task) (nb : String → List String)
    (deg : List (String × Int)) (acc : List Task) :
    kahnLoop ts nb [] deg acc = acc := rfl

/-- Unfolding `kahnLoop` on a queue pop: exactly the Go loop body. -/
theorem kahnLoop_cons (ts : List Task) (nb : String → List String)
    (n : String) (rest : List String) (deg : List (String × Int)) (acc : List Task) :
    kahnLoop ts nb (n :: rest) deg acc =
      kahnLoop ts nb (rest ++ (stepNeighbors (nb n) deg).2)
        (stepNeighbors (nb n) deg).1 (acc ++ (lookupTask ts n).toList) := by
  rw [kahnLoop, kahnLoop]
  rw [show (n :: rest).length + degSum deg + 1
      = ((n :: rest).length + degSum deg) + 1 from rfl]
  rw [kahnLoopF]
  have hm := kahn_measure_step (nb n) deg rest
  apply kahnLoopF_fuel_irrel
  · rw [List.length_cons]
    omega
  · omega

/-- Embedding of `DAG.TopologicalSort` (src/unnamed/part_004).  The initial
queue takes the in-degree-0 names in map-iteration order (step 4). -/
def TopologicalSort (d : DAG) : Except String (List Task) :=
  let deg0 := buildInDegree d.tasks
  let queue0 := (deg0.filter (fun e => e.2 == 0)).map (fun e => e.1)
  let result := kahnLoop d.tasks (neighborsOf d.tasks) queue0 deg0 []
  if result.length = d.tasks.length then Except.ok result
  else Except.error "cycle detected in DAG"

/-- Dependency list of the task named `n` (empty for an unknown name). -/
def depsOf (ts : List Task) (n : String) : List String :=
  match lookupTask ts n with
  | some t => t.dependsOn
  | none => []

/-- Every dependency of every task names a task of the graph
(the invariant `Validate` enforces for accepted graphs). -/
def closedDeps (ts : List Task) : Prop :=
  ∀ t ∈ ts, ∀ dep ∈ t.dependsOn, dep ∈ taskNames ts

/-- `l` lists every dependency of each of its tasks strictly before that task:
the "every dependency appears before its dependent" property. -/
def respectsDeps (l : List Task) : Prop :=
  ∀ i (h : i < l.length), ∀ dep ∈ (l.get ⟨i, h⟩).dependsOn, dep ∈ (l.take i).map Task.name

/-- The dependency edge relation of a graph: `depEdge ts a b` holds when task
`b` lists `a` among its dependencies (so `a` must run before `b`). -/
def depEdge (ts : List Task) (a b : String) : Prop :=
  ∃ t ∈ ts, t.name = b ∧ a ∈ t.dependsOn

/-- The dependency relation is not acyclic: some name reaches itself through
one or more dependency edges. -/
def HasCycle (ts : List Task) : Prop :=
  ∃ n, Relation.TransGen (depEdge ts) n n

/-! ### Lookup and name lemmas -/

theorem lookupTask_eq_some (ts : List Task) (n : String) (t : Task)
    (h : lookupTask ts n = some t) : t ∈ ts ∧ t.name = n := by
  constructor
  · exact List.mem_of_find?_eq_some h
  · have := List.find?_some h
    simpa using this

theorem lookupTask_isSome_iff (ts : List Task) (n : String) :
    (lookupTask ts n).isSome ↔ n ∈ taskNames ts := by
  induction ts with
  | nil => simp [lookupTask, taskNames]
  | cons t rest ih =>
    rw [lookupTask, List.find?_cons]
    by_cases h : t.name = n
    · simp [h, taskNames]
    · have hbeq : (t.name == n) = false := by simpa using h
      rw [hbeq]
      have hne : ¬ n = t.name := fun hh => h hh.symm
      show (lookupTask rest n).isSome ↔ _
      rw [ih]
      show n ∈ taskNames rest ↔ n ∈ taskNames (t :: rest)
      rw [taskNames, taskNames, List.map_cons, List.mem_cons]
      exact ⟨Or.inr, fun hc => hc.resolve_left hne⟩

theorem name_inj (ts : List Task) (hN : (taskNames ts).Nodup)
    {a b : Task} (ha : a ∈ ts) (hb : b ∈ ts) (hab : a.name = b.name) : a = b := by
  induction ts with
  | nil => cases ha
  | cons t rest ih =>
    rw [taskNames, List.map_cons, List.nodup_cons] at hN
    rcases List.mem_cons.mp ha with ha1 | ha1 <;>
      rcases List.mem_cons.mp hb with hb1 | hb1
    · exact ha1.trans hb1.symm
    · exfalso
      apply hN.1
      have h1 : b.name ∈ List.map Task.name rest := List.mem_map_of_mem Task.name hb1
      have h2 : t.name = b.name := by rw [← ha1, hab]
      rw [h2]
      exact h1
    · exfalso
      apply hN.1
      have h1 : a.name ∈ List.map Task.name rest := List.mem_map_of_mem Task.name ha1
      have h2 : t.name = a.name := by rw [← hb1, ← hab]
      rw [h2]
      exact h1
    · exact ih hN.2 ha1 hb1

theorem lookupTask_of_mem (ts : List Task) (hN : (taskNames ts).Nodup)
    {t : Task} (ht : t ∈ ts) : lookupTask ts t.name = some t := by
  induction ts with
  | nil => cases ht
  | cons u rest ih =>
    rw [taskNames, List.map_cons, List.nodup_cons] at hN
    rcases List.mem_cons.mp ht with h1 | h1
    · subst h1
      simp [lookupTask]
    · have hne : ¬ u.name = t.name := by
        intro he
        exact hN.1 (he ▸ List.mem_map_of_mem Task.name h1)
      rw [lookupTask, List.find?_cons]
      have : (u.name == t.name) = false := by
        simpa using hne
      rw [this]
      exact ih hN.2 h1

theorem depsOf_of_mem (ts : List Task) (hN : (taskNames ts).Nodup)
    {t : Task} (ht : t ∈ ts) : depsOf ts t.name = t.dependsOn := by
  rw [depsOf, lookupTask_of_mem ts hN ht]

theorem depsOf_of_not_mem (ts : List Task) {n : String}
    (h : n ∉ taskNames ts) : depsOf ts n = [] := by
  rw [depsOf]
  cases hl : lookupTask ts n with
  | none => rfl
  | some t =>
    exact absurd ((lookupTask_eq_some ts n t hl).2 ▸
      List.mem_map_of_mem Task.name (lookupTask_eq_some ts n t hl).1) h

/-! ### Pointwise behaviour of the in-degree map -/

theorem alGet_alIncr (m : List (String × Int)) (k n : String) :
    alGet (alIncr m k) n = alGet m n + (if n = k then 1 else 0) := by
  induction m with
  | nil =>
    rw [alIncr]
    by_cases h : k = n
    · subst h
      simp [alGet]
    · have hnk : ¬ n = k := fun hh => h hh.symm
      simp [alGet, h, hnk]
  | cons e m ih =>
    rw [alIncr]
    by_cases he : e.1 = k
    · rw [if_pos he]
      by_cases hn : e.1 = n
      · rw [alGet, if_pos hn, alGet, if_pos hn]
        have hk : n = k := by rw [← hn, he]
        rw [if_pos hk]
      · rw [alGet, if_neg hn, alGet, if_neg hn]
        have hk : ¬ n = k := by
          rw [← he]
          exact fun hh => hn hh.symm
        rw [if_neg hk]
        omega
    · rw [if_neg he]
      by_cases hn : e.1 = n
      · rw [alGet, if_pos hn, alGet, if_pos hn]
        have hk : ¬ n = k := fun hh => he (hn.trans hh)
        rw [if_neg hk]
        omega
      · rw [alGet, if_neg hn, alGet, if_neg hn, ih]

theorem alGet_alDecr (m : List (String × Int)) (k n : String) :
    alGet (alDecr m k) n = alGet m n - (if n = k then 1 else 0) := by
  induction m with
  | nil =>
    rw [alDecr]
    by_cases h : k = n
    · subst h
      simp [alGet]
    · have hnk : ¬ n = k := fun hh => h hh.symm
      simp [alGet, h, hnk]
  | cons e m ih =>
    rw [alDecr]
    by_cases he : e.1 = k
    · rw [if_pos he]
      by_cases hn : e.1 = n
      · rw [alGet, if_pos hn, alGet, if_pos hn]
        have hk : n = k := by rw [← hn, he]
        rw [if_pos hk]
      · rw [alGet, if_neg hn, alGet, if_neg hn]
        have hk : ¬ n = k := by
          rw [← he]
          exact fun hh => hn hh.symm
        rw [if_neg hk]
        omega
    · rw [if_neg he]
      by_cases hn : e.1 = n
      · rw [alGet, if_pos hn, alGet, if_pos hn]
        have hk : ¬ n = k := fun hh => he (hn.trans hh)
        rw [if_neg hk]
        omega
      · rw [alGet, if_neg hn, alGet, if_neg hn, ih]

/-! ### Characterisation of `buildInDegree` -/

theorem alGet_foldl_alIncr {α : Type} (l : List α) (m : List (String × Int)) (k n : String) :
    alGet (l.foldl (fun m2 _ => alIncr m2 k) m) n =
      alGet m n + (if n = k then (l.length : Int) else 0) := by
  induction l generalizing m with
  | nil => simp
  | cons x l ih =>
    rw [List.foldl_cons, ih, alGet_alIncr]
    by_cases h : n = k
    · simp only [h, if_pos rfl, List.length_cons]
      push_cast
      omega
    · simp [h]

/-- Total in-degree contribution of the tasks of `l` to the name `n`. -/
def incTotal (l : List Task) (n : String) : Int :=
  ((l.filter (fun t => t.name == n)).map (fun t => (t.dependsOn.length : Int))).sum

theorem alGet_foldl_deps (l : List Task) (m : List (String × Int)) (n : String) :
    alGet (l.foldl (fun m2 t => t.dependsOn.foldl (fun m3 _ => alIncr m3 t.name) m2) m) n =
      alGet m n + incTotal l n := by
  induction l generalizing m with
  | nil => simp [incTotal]
  | cons t l ih =>
    rw [List.foldl_cons, ih, alGet_foldl_alIncr]
    have hsplit : incTotal (t :: l) n =
        (if n = t.name then (t.dependsOn.length : Int) else 0) + incTotal l n := by
      rw [incTotal, List.filter_cons]
      by_cases h : t.name = n
      · rw [if_pos (show (t.name == n) = true by simp [h]), List.map_cons, List.sum_cons,
          if_pos h.symm, incTotal]
      · rw [if_neg (show ¬ (t.name == n) = true by simp [h]), if_neg (fun hh => h hh.symm),
          incTotal]
        omega
    rw [hsplit]
    omega

theorem alGet_init (ts : List Task) (n : String) :
    alGet (ts.map (fun t => (t.name, (0 : Int)))) n = 0 := by
  induction ts with
  | nil => rfl
  | cons t l ih =>
    rw [List.map_cons, alGet]
    by_cases h : t.name = n <;> simp [h, ih]

theorem filter_name_of_mem (ts : List Task) (hN : (taskNames ts).Nodup)
    {t : Task} (ht : t ∈ ts) : ts.filter (fun u => u.name == t.name) = [t] := by
  induction ts with
  | nil => cases ht
  | cons u rest ih =>
    rw [taskNames, List.map_cons, List.nodup_cons] at hN
    rcases List.mem_cons.mp ht with h1 | h1
    · subst h1
      rw [List.filter_cons, if_pos (by simp)]
      have : rest.filter (fun u => u.name == t.name) = [] := by
        rw [List.filter_eq_nil_iff]
        intro a ha hc
        apply hN.1
        have hac : a.name = t.name := by simpa using hc
        rw [← hac]
        exact List.mem_map_of_mem Task.name ha
      rw [this]
    · have hne : (u.name == t.name) = false := by
        simp only [beq_eq_false_iff_ne, ne_eq]
        intro he
        apply hN.1
        rw [he]
        exact List.mem_map_of_mem Task.name h1
      rw [List.filter_cons, hne, if_neg (by simp)]
      exact ih hN.2 h1

theorem filter_name_of_not_mem (ts : List Task) {n : String}
    (h : n ∉ taskNames ts) : ts.filter (fun u => u.name == n) = [] := by
  rw [List.filter_eq_nil_iff]
  intro a ha hc
  apply h
  have : a.name = n := by simpa using hc
  rw [← this]
  exact List.mem_map_of_mem Task.name ha

theorem alGet_buildInDegree (ts : List Task) (hN : (taskNames ts).Nodup) (n : String) :
    alGet (buildInDegree ts) n = ((depsOf ts n).length : Int) := by
  rw [buildInDegree, alGet_foldl_deps, alGet_init, incTotal]
  by_cases h : n ∈ taskNames ts
  · have hs : (lookupTask ts n).isSome := (lookupTask_isSome_iff ts n).mpr h
    match hl : lookupTask ts n with
    | some t =>
      obtain ⟨hmem, hname⟩ := lookupTask_eq_some ts n t hl
      rw [depsOf, hl, ← hname, filter_name_of_mem ts hN hmem]
      simp
    | none => rw [hl] at hs; cases hs
  · rw [filter_name_of_not_mem ts h, depsOf_of_not_mem ts h]
    simp

theorem alIncr_keys (m : List (String × Int)) (k : String) :
    k ∈ m.map Prod.fst → (alIncr m k).map Prod.fst = m.map Prod.fst := by
  induction m with
  | nil =>
    intro h
    cases h
  | cons e m ih =>
    intro h
    rw [alIncr]
    by_cases he : e.1 = k
    · rw [if_pos he]
      simp
    · have hk : k ∈ m.map Prod.fst := by
        rw [List.map_cons] at h
        rcases List.mem_cons.mp h with h1 | h1
        · exact absurd h1.symm he
        · exact h1
      rw [if_neg he, List.map_cons, List.map_cons, ih hk]

theorem buildInDegree_keys (ts : List Task) :
    (buildInDegree ts).map Prod.fst = taskNames ts := by
  rw [buildInDegree]
  have init : (ts.map (fun t => (t.name, (0 : Int)))).map Prod.fst = taskNames ts := by
    rw [taskNames, List.map_map]
    rfl
  have main : ∀ (l : List Task) (m : List (String × Int)),
      (∀ t ∈ l, t.name ∈ m.map Prod.fst) →
      (l.foldl (fun m2 t => t.dependsOn.foldl (fun m3 _ => alIncr m3 t.name) m2) m).map Prod.fst
        = m.map Prod.fst := by
    intro l
    induction l with
    | nil => intro m _; rfl
    | cons t l ih =>
      intro m hm
      rw [List.foldl_cons]
      have inner : ∀ (ds : List String) (m2 : List (String × Int)), t.name ∈ m2.map Prod.fst →
          (ds.foldl (fun m3 _ => alIncr m3 t.name) m2).map Prod.fst = m2.map Prod.fst := by
        intro ds
        induction ds with
        | nil => intro m2 _; rfl
        | cons d ds ihd =>
          intro m2 h2
          rw [List.foldl_cons, ihd _ (by rw [alIncr_keys m2 t.name h2]; exact h2),
            alIncr_keys m2 t.name h2]
      have hkeys := inner t.dependsOn m (hm t (List.mem_cons_self t l))
      rw [ih _ (fun u hu => by rw [hkeys]; exact hm u (List.mem_cons_of_mem t hu)), hkeys]
  rw [main ts _ (fun t ht => by rw [init]; exact List.mem_map_of_mem Task.name ht), init]

theorem filter_zero_keys (m : List (String × Int)) (hK : (m.map Prod.fst).Nodup) :
    (m.filter (fun e => e.2 == 0)).map Prod.fst
      = (m.map Prod.fst).filter (fun k => alGet m k == 0) := by
  induction m with
  | nil => rfl
  | cons e m ih =>
    rw [List.map_cons, List.nodup_cons] at hK
    rw [List.filter_cons, List.map_cons, List.filter_cons]
    have hself : alGet (e :: m) e.1 = e.2 := by
      rw [alGet, if_pos rfl]
    have htail : (m.map Prod.fst).filter (fun k => alGet (e :: m) k == 0)
        = (m.map Prod.fst).filter (fun k => alGet m k == 0) := by
      apply List.filter_congr
      intro k hk
      have : ¬ e.1 = k := fun hh => hK.1 (hh ▸ hk)
      rw [alGet, if_neg this]
    by_cases h : e.2 = 0
    · rw [if_pos (by simpa using h), if_pos (by rw [hself]; simpa using h),
        List.map_cons, htail, ih hK.2]
    · rw [if_neg (by simpa using h), if_neg (by rw [hself]; simpa using h),
        htail, ih hK.2]

/-! ### Characterisation of `neighborsOf` -/

theorem count_eq_length_filter_beq (l : List String) (a : String) :
    l.count a = (l.filter (fun d => d == a)).length := by
  induction l with
  | nil => rfl
  | cons x l ih =>
    rw [List.count_cons, List.filter_cons, ih]
    by_cases h : x = a
    · rw [if_pos (show (x == a) = true by simp [h])]
      simp [h]
    · rw [if_neg (show ¬ (x == a) = true by simp [h])]
      simp [h]

theorem count_map_const {α : Type} (l : List α) (c n : String) :
    (l.map (fun _ => c)).count n = if c = n then l.length else 0 := by
  induction l with
  | nil => simp
  | cons x l ih =>
    rw [List.map_cons, List.count_cons, ih]
    by_cases h : c = n <;> simp [h]

theorem count_neighbors_unsorted (ts : List Task) (dep n : String) :
    (ts.flatMap (fun t => (t.dependsOn.filter (fun d => d == dep)).map (fun _ => t.name))).count n
      = ((ts.filter (fun t => t.name == n)).map (fun t => t.dependsOn.count dep)).sum := by
  induction ts with
  | nil => rfl
  | cons t l ih =>
    rw [List.flatMap_cons, List.count_append, ih, count_map_const, List.filter_cons]
    by_cases h : t.name = n
    · rw [if_pos h, if_pos (show (t.name == n) = true by simp [h]), List.map_cons,
        List.sum_cons, count_eq_length_filter_beq]
    · rw [if_neg h, if_neg (show ¬ (t.name == n) = true by simp [h])]
      omega

theorem count_neighborsOf (ts : List Task) (hN : (taskNames ts).Nodup) (dep n : String) :
    (neighborsOf ts dep).count n = (depsOf ts n).count dep := by
  rw [neighborsOf, (List.perm_insertionSort _ _).count_eq, count_neighbors_unsorted]
  by_cases h : n ∈ taskNames ts
  · have hs : (lookupTask ts n).isSome := (lookupTask_isSome_iff ts n).mpr h
    match hl : lookupTask ts n with
    | some t =>
      obtain ⟨hmem, hname⟩ := lookupTask_eq_some ts n t hl
      rw [depsOf, hl, ← hname, filter_name_of_mem ts hN hmem]
      simp
    | none => rw [hl] at hs; cases hs
  · rw [filter_name_of_not_mem ts h, depsOf_of_not_mem ts h]
    simp

theorem mem_neighborsOf_names (ts : List Task) (hN : (taskNames ts).Nodup)
    {dep n : String} (h : n ∈ neighborsOf ts dep) : n ∈ taskNames ts := by
  by_cases hn : n ∈ taskNames ts
  · exact hn
  · exfalso
    have hc : 0 < (neighborsOf ts dep).count n := List.count_pos_iff.mpr h
    rw [count_neighborsOf ts hN, depsOf_of_not_mem ts hn] at hc
    simp at hc

/-! ### Exact behaviour of one `stepNeighbors` pass -/

theorem stepNeighbors_get (nbs : List String) (deg : List (String × Int)) (n : String) :
    alGet (stepNeighbors nbs deg).1 n = alGet deg n - (nbs.count n : Int) := by
  induction nbs generalizing deg with
  | nil => simp [stepNeighbors]
  | cons nb more ih =>
    simp only [stepNeighbors]
    rw [apply_ite Prod.fst, ite_self, ih, alGet_alDecr, List.count_cons]
    by_cases h : n = nb
    · rw [if_pos h, if_pos (show (nb == n) = true by simp [h.symm])]
      push_cast
      omega
    · have hnb : ¬ (nb == n) = true := by
        simp only [beq_iff_eq]
        exact fun hh => h hh.symm
      rw [if_neg h, if_neg hnb]
      push_cast
      omega

theorem stepNeighbors_pushed_count (nbs : List String) (deg : List (String × Int)) (n : String) :
    ((stepNeighbors nbs deg).2).count n
      = if 0 < alGet deg n ∧ alGet deg n ≤ (nbs.count n : Int) then 1 else 0 := by
  induction nbs generalizing deg with
  | nil =>
    simp only [stepNeighbors, List.count_nil]
    rw [if_neg]
    push_cast
    omega
  | cons nb more ih =>
    simp only [stepNeighbors]
    rw [apply_ite Prod.snd, apply_ite (List.count n), List.count_cons, ih, List.count_cons]
    have hd := alGet_alDecr deg nb n
    have hdnb := alGet_alDecr deg nb nb
    rw [if_pos rfl] at hdnb
    by_cases hn : n = nb
    · subst hn
      rw [if_pos rfl] at hd
      rw [if_pos (show (n == n) = true by simp)]
      split_ifs <;> push_cast at * <;> omega
    · have hnb : ¬ (nb == n) = true := by
        simp only [beq_iff_eq]
        exact fun hh => hn hh.symm
      rw [if_neg hn, sub_zero] at hd
      rw [if_neg hnb]
      split_ifs <;> push_cast at * <;> omega

theorem stepNeighbors_pushed_nodup (nbs : List String) (deg : List (String × Int)) :
    ((stepNeighbors nbs deg).2).Nodup := by
  rw [List.nodup_iff_count_le_one]
  intro a
  rw [stepNeighbors_pushed_count]
  split_ifs <;> omega

theorem mem_stepNeighbors_pushed (nbs : List String) (deg : List (String × Int)) (n : String) :
    n ∈ (stepNeighbors nbs deg).2 ↔
      0 < alGet deg n ∧ alGet deg n ≤ (nbs.count n : Int) := by
  rw [← List.count_pos_iff, stepNeighbors_pushed_count]
  split_ifs with h
  · simp [h]
  · simp [h]

/-! ### The Kahn loop invariant

Fixing a task list with distinct names and in-graph dependencies, the loop
state (queue, in-degree map, emitted prefix) satisfies: emitted tasks are
graph tasks; no name is both emitted and queued, or queued twice; queued
names are task names; the in-degree of `n` counts the dependency occurrences
of `n` not yet emitted; a task name is emitted-or-queued exactly when its
remaining in-degree is zero; and the emitted prefix lists dependencies
before dependents. -/

structure KahnInv (ts : List Task) (queue : List String) (deg : List (String × Int))
    (acc : List Task) : Prop where
  accMem : ∀ a ∈ acc, a ∈ ts
  nodup : (acc.map Task.name ++ queue).Nodup
  queueNames : ∀ q ∈ queue, q ∈ taskNames ts
  degVal : ∀ n ∈ taskNames ts, alGet deg n =
      (((depsOf ts n).countP (fun d => decide (d ∉ acc.map Task.name))) : Int)
  ready : ∀ n ∈ taskNames ts,
      (n ∈ acc.map Task.name ∨ n ∈ queue) ↔ alGet deg n = 0
  order : respectsDeps acc

theorem countP_notmem_snoc (l em : List String) (n0 : String) (h : n0 ∉ em) :
    l.countP (fun d => decide (d ∉ em ++ [n0])) + l.count n0
      = l.countP (fun d => decide (d ∉ em)) := by
  induction l with
  | nil => simp
  | cons x l ih =>
    rw [List.countP_cons, List.countP_cons, List.count_cons]
    by_cases hx : x = n0
    · rw [if_neg (show ¬ (decide (x ∉ em ++ [n0])) = true by simp [hx]),
        if_pos (show (decide (x ∉ em)) = true by simp [hx, h]),
        if_pos (show (x == n0) = true by simp [hx])]
      omega
    · have he : (decide (x ∉ em ++ [n0])) = (decide (x ∉ em)) := by
        by_cases hm : x ∈ em <;> simp [List.mem_append, hx, hm]
      rw [he, if_neg (show ¬ (x == n0) = true by simp [hx])]
      omega

theorem depsOf_ne_nil_mem (ts : List Task) {n : String}
    (h : depsOf ts n ≠ []) : n ∈ taskNames ts := by
  by_cases hn : n ∈ taskNames ts
  · exact hn
  · exact absurd (depsOf_of_not_mem ts hn) h

/-- One iteration of the Kahn loop preserves the invariant. -/
theorem kahnInv_step (ts : List Task) (hN : (taskNames ts).Nodup)
    (n0 : String) (rest : List String) (deg : List (String × Int)) (acc : List Task)
    (inv : KahnInv ts (n0 :: rest) deg acc) :
    KahnInv ts (rest ++ (stepNeighbors (neighborsOf ts n0) deg).2)
      (stepNeighbors (neighborsOf ts n0) deg).1
      (acc ++ (lookupTask ts n0).toList) := by
  have hn0 : n0 ∈ taskNames ts := inv.queueNames n0 (List.mem_cons_self _ _)
  obtain ⟨t0, ht0⟩ : ∃ t, lookupTask ts n0 = some t := by
    have hs := (lookupTask_isSome_iff ts n0).mpr hn0
    cases h : lookupTask ts n0 with
    | some t => exact ⟨t, rfl⟩
    | none => rw [h] at hs; cases hs
  obtain ⟨ht0mem, ht0name⟩ := lookupTask_eq_some ts n0 t0 ht0
  have hemit : (acc ++ (lookupTask ts n0).toList).map Task.name
      = acc.map Task.name ++ [n0] := by
    rw [ht0]
    simp [ht0name]
  have hndold := inv.nodup
  rw [List.nodup_append] at hndold
  have hn0em : n0 ∉ acc.map Task.name := fun hmem =>
    hndold.2.2 hmem (List.mem_cons_self _ _)
  have hemNames : ∀ x ∈ acc.map Task.name, x ∈ taskNames ts := by
    intro x hx
    obtain ⟨a, ha, rfl⟩ := List.mem_map.mp hx
    exact List.mem_map_of_mem Task.name (inv.accMem a ha)
  have hget : ∀ n, alGet (stepNeighbors (neighborsOf ts n0) deg).1 n
      = alGet deg n - ((depsOf ts n).count n0 : Int) := by
    intro n
    rw [stepNeighbors_get, count_neighborsOf ts hN]
  have hmemP : ∀ n, n ∈ (stepNeighbors (neighborsOf ts n0) deg).2 ↔
      0 < alGet deg n ∧ alGet deg n ≤ ((depsOf ts n).count n0 : Int) := by
    intro n
    rw [mem_stepNeighbors_pushed, count_neighborsOf ts hN]
  have hpushNames : ∀ p ∈ (stepNeighbors (neighborsOf ts n0) deg).2, p ∈ taskNames ts := by
    intro p hp
    obtain ⟨hpos, hle⟩ := (hmemP p).mp hp
    have : (depsOf ts p).count n0 ≠ 0 := by
      intro h0
      rw [h0] at hle
      omega
    exact depsOf_ne_nil_mem ts (fun hnil => this (by rw [hnil]; rfl))
  -- remaining in-degree bookkeeping, for a name of the graph
  have hkey : ∀ n ∈ taskNames ts,
      (depsOf ts n).countP (fun d => decide (d ∉ acc.map Task.name ++ [n0]))
          + (depsOf ts n).count n0
        = (depsOf ts n).countP (fun d => decide (d ∉ acc.map Task.name)) := by
    intro n _
    exact countP_notmem_snoc _ _ n0 hn0em
  have hdeg0 : alGet deg n0 = 0 :=
    (inv.ready n0 hn0).mp (Or.inr (List.mem_cons_self _ _))
  constructor
  case accMem =>
    intro a ha
    rcases List.mem_append.mp ha with h1 | h1
    · exact inv.accMem a h1
    · rw [ht0] at h1
      cases h1 with
      | head => exact ht0mem
      | tail _ hh => cases hh
  case nodup =>
    rw [hemit, List.nodup_append, List.nodup_append, List.nodup_append]
    have hrestnd : rest.Nodup := (List.nodup_cons.mp hndold.2.1).2
    have hn0rest : n0 ∉ rest := (List.nodup_cons.mp hndold.2.1).1
    refine ⟨⟨hndold.1, List.nodup_singleton n0, ?_⟩,
      ⟨hrestnd, stepNeighbors_pushed_nodup _ _, ?_⟩, ?_⟩
    · intro x hx hx0
      rw [List.mem_singleton] at hx0
      subst hx0
      exact hn0em hx
    · intro x hx hxp
      obtain ⟨hpos, _⟩ := (hmemP x).mp hxp
      have : alGet deg x = 0 := (inv.ready x (inv.queueNames x (List.mem_cons_of_mem n0 hx))).mp
        (Or.inr (List.mem_cons_of_mem n0 hx))
      omega
    · intro x hx hxq
      rcases List.mem_append.mp hx with h1 | h1
      · rcases List.mem_append.mp hxq with h2 | h2
        · exact hndold.2.2 h1 (List.mem_cons_of_mem n0 h2)
        · obtain ⟨hpos, _⟩ := (hmemP x).mp h2
          have : alGet deg x = 0 := (inv.ready x (hemNames x h1)).mp (Or.inl h1)
          omega
      · rw [List.mem_singleton] at h1
        subst h1
        rcases List.mem_append.mp hxq with h2 | h2
        · exact hn0rest h2
        · obtain ⟨hpos, _⟩ := (hmemP x).mp h2
          omega
  case queueNames =>
    intro q hq
    rcases List.mem_append.mp hq with h1 | h1
    · exact inv.queueNames q (List.mem_cons_of_mem n0 h1)
    · exact hpushNames q h1
  case degVal =>
    intro n hn
    rw [hemit, hget n, inv.degVal n hn]
    have := hkey n hn
    omega
  case ready =>
    intro n hn
    have hold := inv.ready n hn
    have hval := inv.degVal n hn
    have hc := hkey n hn
    have hg := hget n
    have hp := hmemP n
    rw [hemit]
    rw [List.mem_cons] at hold
    constructor
    · intro hin
      rcases hin with h1 | h1
      · rcases List.mem_append.mp h1 with h2 | h2
        · have hz : alGet deg n = 0 := hold.mp (Or.inl h2)
          rw [hg]
          omega
        · rw [List.mem_singleton] at h2
          subst h2
          rw [hg]
          omega
      · rcases List.mem_append.mp h1 with h2 | h2
        · have hz : alGet deg n = 0 := hold.mp (Or.inr (Or.inr h2))
          rw [hg]
          omega
        · obtain ⟨hpos, hle⟩ := hp.mp h2
          rw [hg]
          omega
    · intro hz
      rw [hg] at hz
      by_cases hem : n ∈ acc.map Task.name
      · exact Or.inl (List.mem_append.mpr (Or.inl hem))
      by_cases heq : n = n0
      · exact Or.inl (List.mem_append.mpr (Or.inr (List.mem_singleton.mpr heq)))
      by_cases hrest : n ∈ rest
      · exact Or.inr (List.mem_append.mpr (Or.inl hrest))
      · refine Or.inr (List.mem_append.mpr (Or.inr (hp.mpr ?_)))
        have hnz : ¬ alGet deg n = 0 := by
          intro h0
          rcases hold.mpr h0 with h1 | h1 | h1
          · exact hem h1
          · exact heq h1
          · exact hrest h1
        constructor
        · omega
        · omega
  case order =>
    rw [ht0]
    show respectsDeps (acc ++ [t0])
    intro i h dep hdep
    have hlen : i < acc.length + 1 := by
      rw [List.length_append, List.length_singleton] at h
      exact h
    by_cases hi : i < acc.length
    · rw [List.get_append i hi] at hdep
      rw [List.take_append_of_le_length (Nat.le_of_lt hi)]
      exact inv.order i hi dep hdep
    · have hi2 : i = acc.length := by omega
      subst hi2
      have hg0 : (acc ++ [t0]).get ⟨acc.length, h⟩ = t0 := by
        rw [List.get_append_right acc [t0] (Nat.le_refl _)]
        all_goals simp
      rw [hg0] at hdep
      have hdeps : depsOf ts n0 = t0.dependsOn := by
        rw [← ht0name]
        exact depsOf_of_mem ts hN ht0mem
      have hcp : (depsOf ts n0).countP (fun d => decide (d ∉ acc.map Task.name)) = 0 := by
        have := inv.degVal n0 hn0
        omega
      have hdem : dep ∈ acc.map Task.name := by
        have hall := List.countP_eq_zero.mp hcp
        have := hall dep (by rw [hdeps]; exact hdep)
        simpa using this
      rw [List.take_append_of_le_length (Nat.le_refl _), List.take_length]
      exact hdem

/-- The invariant holds on entry to the loop. -/
theorem kahnInv_init (ts : List Task) (hN : (taskNames ts).Nodup) :
    KahnInv ts (((buildInDegree ts).filter (fun e => e.2 == 0)).map (fun e => e.1))
      (buildInDegree ts) [] := by
  have hkeysnd : ((buildInDegree ts).map Prod.fst).Nodup := by
    rw [buildInDegree_keys]
    exact hN
  have hq : ((buildInDegree ts).filter (fun e => e.2 == 0)).map (fun e => e.1)
      = (taskNames ts).filter (fun k => alGet (buildInDegree ts) k == 0) := by
    have hfz := filter_zero_keys (buildInDegree ts) hkeysnd
    rw [buildInDegree_keys] at hfz
    exact hfz
  constructor
  case accMem =>
    intro a ha
    cases ha
  case nodup =>
    simp only [List.map_nil, List.nil_append]
    rw [hq]
    exact hN.filter _
  case queueNames =>
    intro q hq2
    rw [hq] at hq2
    exact (List.mem_filter.mp hq2).1
  case degVal =>
    intro n hn
    rw [alGet_buildInDegree ts hN n]
    simp only [List.map_nil]
    have hcp : (depsOf ts n).countP (fun d => decide (d ∉ ([] : List String)))
        = (depsOf ts n).length := by
      rw [List.countP_eq_length]
      intro a _
      simp
    rw [hcp]
  case ready =>
    intro n hn
    simp only [List.map_nil, List.mem_nil_iff, false_or]
    rw [hq]
    constructor
    · intro h
      have := (List.mem_filter.mp h).2
      simpa using this
    · intro h
      exact List.mem_filter.mpr ⟨hn, by simpa using h⟩
  case order =>
    intro i h dep hdep
    simp at h

/-- Running the loop from any invariant state yields a final state that
still satisfies the invariant and has an empty queue. -/
theorem kahnLoop_spec (ts : List Task) (hN : (taskNames ts).Nodup) :
    ∀ queue deg acc, KahnInv ts queue deg acc →
      ∃ degF, KahnInv ts [] degF (kahnLoop ts (neighborsOf ts) queue deg acc) := by
  have main : ∀ (fuel : Nat) (queue : List String) (deg : List (String × Int))
      (acc : List Task), queue.length + degSum deg < fuel → KahnInv ts queue deg acc →
      ∃ degF, KahnInv ts [] degF (kahnLoopF ts (neighborsOf ts) fuel queue deg acc) := by
    intro fuel
    induction fuel with
    | zero =>
      intro queue deg acc h1 _
      omega
    | succ g ih =>
      intro queue deg acc h1 inv
      match queue with
      | [] => exact ⟨deg, inv⟩
      | n :: rest =>
        rw [kahnLoopF]
        have hm := kahn_measure_step (neighborsOf ts n) deg rest
        rw [List.length_cons] at h1
        exact ih _ _ _ (by omega) (kahnInv_step ts hN n rest deg acc inv)
  intro queue deg acc inv
  exact main _ queue deg acc (by omega) inv

/-- At loop exit an emitted name means all its dependencies were emitted. -/
theorem kahnInv_emitted_iff (ts : List Task) {deg : List (String × Int)} {acc : List Task}
    (inv : KahnInv ts [] deg acc) :
    ∀ n ∈ taskNames ts,
      (n ∈ acc.map Task.name ↔ ∀ d ∈ depsOf ts n, d ∈ acc.map Task.name) := by
  intro n hn
  have hr := inv.ready n hn
  have hv := inv.degVal n hn
  simp only [List.mem_nil_iff, or_false] at hr
  rw [hr]
  have hz : alGet deg n = 0 ↔
      (depsOf ts n).countP (fun d => decide (d ∉ acc.map Task.name)) = 0 := by
    rw [hv]
    exact Nat.cast_eq_zero
  rw [hz, List.countP_eq_zero]
  constructor
  · intro hall d hd
    have := hall d hd
    simpa using this
  · intro hall d hd
    simpa using hall d hd

/-- A complete loop result is a permutation of the graph's tasks. -/
theorem kahn_result_perm (ts : List Task) (hN : (taskNames ts).Nodup)
    {deg : List (String × Int)} {acc : List Task}
    (inv : KahnInv ts [] deg acc) (hlen : acc.length = ts.length) : acc.Perm ts := by
  have hem : (acc.map Task.name).Nodup := by
    have hnd := inv.nodup
    rwa [List.append_nil] at hnd
  have hsub : acc.map Task.name ⊆ taskNames ts := by
    intro x hx
    obtain ⟨a, ha, rfl⟩ := List.mem_map.mp hx
    exact List.mem_map_of_mem Task.name (inv.accMem a ha)
  obtain ⟨l2, hperm, hsl⟩ := hem.subperm hsub
  have hlen2 : l2.length = (taskNames ts).length := by
    rw [hperm.length_eq, List.length_map, taskNames, List.length_map, hlen]
  have hl2 : l2 = taskNames ts := hsl.eq_of_length hlen2
  have hpermNames : (acc.map Task.name).Perm (taskNames ts) := by
    rw [← hl2]
    exact hperm.symm
  have haccnd : acc.Nodup := List.Nodup.of_map Task.name hem
  have htsnd : ts.Nodup := List.Nodup.of_map Task.name hN
  rw [List.perm_ext_iff_of_nodup haccnd htsnd]
  intro a
  constructor
  · exact fun ha => inv.accMem a ha
  · intro hts
    have hmemn : a.name ∈ acc.map Task.name :=
      hpermNames.mem_iff.mpr (List.mem_map_of_mem Task.name hts)
    obtain ⟨b, hb, hbname⟩ := List.mem_map.mp hmemn
    have hba : b = a := name_inj ts hN (inv.accMem b hb) hts hbname
    rwa [← hba]

/-! ### Cycle extraction for an incomplete run -/

/-- Among the dependencies of `r`, pick one outside `em` (or `r` itself if
there is none); used to walk backwards through unemitted tasks. -/
def pickPred (ts : List Task) (em : List String) (r : String) : String :=
  match (depsOf ts r).find? (fun d => decide (d ∉ em)) with
  | some d => d
  | none => r

theorem pickPred_spec (ts : List Task) (em : List String) (r : String)
    (h : ∃ d ∈ depsOf ts r, d ∉ em) :
    pickPred ts em r ∈ depsOf ts r ∧ pickPred ts em r ∉ em := by
  obtain ⟨d, hd, hdem⟩ := h
  have hs : ((depsOf ts r).find? (fun d => decide (d ∉ em))).isSome := by
    rw [List.find?_isSome]
    exact ⟨d, hd, by simpa using hdem⟩
  match hf : (depsOf ts r).find? (fun d => decide (d ∉ em)) with
  | some d2 =>
    rw [pickPred, hf]
    refine ⟨List.mem_of_find?_eq_some hf, ?_⟩
    have := List.find?_some hf
    simpa using this
  | none =>
    rw [hf] at hs
    cases hs

theorem indexOf_lt_of_mem_take {s : List String} {a : String} :
    ∀ {i : Nat}, a ∈ s.take i → s.indexOf a < i := by
  induction s with
  | nil =>
    intro i h
    rw [List.take_nil] at h
    cases h
  | cons x s2 ih =>
    intro i h
    match i with
    | 0 => cases h
    | k + 1 =>
      rw [List.take_succ_cons] at h
      by_cases hx : x = a
      · rw [hx, List.indexOf_cons_self]
        omega
      · rcases List.mem_cons.mp h with h1 | h1
        · exact absurd h1.symm hx
        · rw [List.indexOf_cons_ne s2 hx]
          have := ih h1
          omega

/-- A permutation of the tasks that lists dependencies first rules out any
dependency cycle. -/
theorem respectsDeps_no_cycle (ts : List Task) (l : List Task)
    (hN : (taskNames ts).Nodup) (hC : closedDeps ts)
    (hperm : l.Perm ts) (hord : respectsDeps l) : ¬ HasCycle ts := by
  rintro ⟨n, hcyc⟩
  have hnames : (l.map Task.name).Perm (taskNames ts) := hperm.map Task.name
  have hkey : ∀ a b, depEdge ts a b →
      (l.map Task.name).indexOf a < (l.map Task.name).indexOf b := by
    rintro a b ⟨t, htmem, htname, hadep⟩
    have hbmem : b ∈ l.map Task.name := by
      apply hnames.mem_iff.mpr
      rw [← htname]
      exact List.mem_map_of_mem Task.name htmem
    have hamem : a ∈ l.map Task.name := hnames.mem_iff.mpr (hC t htmem a hadep)
    have hilt : (l.map Task.name).indexOf b < (l.map Task.name).length :=
      List.indexOf_lt_length.mpr hbmem
    have higetl : (l.map Task.name).indexOf b < l.length := by
      rw [List.length_map] at hilt
      exact hilt
    have hgetname : (l.get ⟨(l.map Task.name).indexOf b, higetl⟩).name = b := by
      have hidx := List.getElem_indexOf hilt
      rw [List.getElem_map] at hidx
      exact hidx
    have hgetmem : l.get ⟨(l.map Task.name).indexOf b, higetl⟩ ∈ ts :=
      hperm.mem_iff.mp (l.get_mem _ _)
    have hteq : l.get ⟨(l.map Task.name).indexOf b, higetl⟩ = t :=
      name_inj ts hN hgetmem htmem (by rw [hgetname, htname])
    have htake := hord ((l.map Task.name).indexOf b) higetl a (by rw [hteq]; exact hadep)
    rw [List.map_take] at htake
    exact indexOf_lt_of_mem_take htake
  have hmono : ∀ a b, Relation.TransGen (depEdge ts) a b →
      (l.map Task.name).indexOf a < (l.map Task.name).indexOf b := by
    intro a b h
    induction h with
    | single h1 => exact hkey _ _ h1
    | tail _ h1 ih => exact lt_trans ih (hkey _ _ h1)
  exact lt_irrefl _ (hmono n n hcyc)

/-- If the loop ends without emitting every task, the graph has a cycle. -/
theorem kahn_incomplete_cycle (ts : List Task) (hN : (taskNames ts).Nodup)
    (hC : closedDeps ts) {deg : List (String × Int)} {acc : List Task}
    (inv : KahnInv ts [] deg acc) (hne : acc.length ≠ ts.length) : HasCycle ts := by
  have hem : (acc.map Task.name).Nodup := by
    have hnd := inv.nodup
    rwa [List.append_nil] at hnd
  have hsub : acc.map Task.name ⊆ taskNames ts := by
    intro x hx
    obtain ⟨a, ha, rfl⟩ := List.mem_map.mp hx
    exact List.mem_map_of_mem Task.name (inv.accMem a ha)
  -- some task name was never emitted
  have hex : ∃ n ∈ taskNames ts, n ∉ acc.map Task.name := by
    by_contra hall
    push_neg at hall
    have hsub2 : taskNames ts ⊆ acc.map Task.name := fun x hx => hall x hx
    have hsp := hN.subperm hsub2
    have hle := hsp.length_le
    rw [taskNames, List.length_map, List.length_map] at hle
    have hsp2 := hem.subperm hsub
    have hle2 := hsp2.length_le
    rw [taskNames, List.length_map, List.length_map] at hle2
    omega
  obtain ⟨r0, hr0names, hr0em⟩ := hex
  -- every unemitted task name has an unemitted dependency, picked by pickPred
  have hstep : ∀ x, x ∈ taskNames ts → x ∉ acc.map Task.name →
      pickPred ts (acc.map Task.name) x ∈ taskNames ts ∧
      pickPred ts (acc.map Task.name) x ∉ acc.map Task.name ∧
      depEdge ts (pickPred ts (acc.map Task.name) x) x := by
    intro x hx hxem
    have hiff := kahnInv_emitted_iff ts inv x hx
    have hexd : ∃ d ∈ depsOf ts x, d ∉ acc.map Task.name := by
      by_contra hcon
      push_neg at hcon
      exact hxem (hiff.mpr hcon)
    obtain ⟨hd1, hd2⟩ := pickPred_spec ts _ x hexd
    obtain ⟨t, ht⟩ : ∃ t, lookupTask ts x = some t := by
      have hs := (lookupTask_isSome_iff ts x).mpr hx
      cases hlk : lookupTask ts x with
      | some t => exact ⟨t, rfl⟩
      | none => rw [hlk] at hs; cases hs
    obtain ⟨htmem, htname⟩ := lookupTask_eq_some ts x t ht
    have hdeps : depsOf ts x = t.dependsOn := by
      rw [depsOf, ht]
    refine ⟨?_, hd2, ?_⟩
    · exact hC t htmem _ (by rw [← hdeps]; exact hd1)
    · exact ⟨t, htmem, htname, by rw [← hdeps]; exact hd1⟩
  -- the iterated picks stay unemitted and form a backwards dependency walk
  have hiter : ∀ k, (pickPred ts (acc.map Task.name))^[k] r0 ∈ taskNames ts ∧
      (pickPred ts (acc.map Task.name))^[k] r0 ∉ acc.map Task.name := by
    intro k
    induction k with
    | zero => exact ⟨hr0names, hr0em⟩
    | succ k ih =>
      rw [Function.iterate_succ_apply']
      have := hstep _ ih.1 ih.2
      exact ⟨this.1, this.2.1⟩
  have hedge : ∀ k, depEdge ts ((pickPred ts (acc.map Task.name))^[k + 1] r0)
      ((pickPred ts (acc.map Task.name))^[k] r0) := by
    intro k
    rw [Function.iterate_succ_apply']
    exact (hstep _ (hiter k).1 (hiter k).2).2.2
  -- pigeonhole: two equal iterates
  have hmaps : ∀ k ∈ Finset.range ((taskNames ts).length + 1),
      (pickPred ts (acc.map Task.name))^[k] r0 ∈ (taskNames ts).toFinset :=
    fun k _ => List.mem_toFinset.mpr (hiter k).1
  have hcard : ((taskNames ts).toFinset).card
      < (Finset.range ((taskNames ts).length + 1)).card := by
    rw [Finset.card_range]
    exact Nat.lt_succ_of_le (List.toFinset_card_le _)
  obtain ⟨i, _, j, _, hne2, heq⟩ :=
    Finset.exists_ne_map_eq_of_card_lt_of_maps_to hcard hmaps
  -- a chain of dependency edges between any two iterates
  have hchain : ∀ i2 m, Relation.TransGen (depEdge ts)
      ((pickPred ts (acc.map Task.name))^[i2 + m + 1] r0)
      ((pickPred ts (acc.map Task.name))^[i2] r0) := by
    intro i2 m
    induction m with
    | zero => exact Relation.TransGen.single (hedge i2)
    | succ m ihm => exact Relation.TransGen.head (hedge (i2 + m + 1)) ihm
  rcases Nat.lt_or_ge i j with hij | hij
  · refine ⟨(pickPred ts (acc.map Task.name))^[j] r0, ?_⟩
    have harith : i + (j - i - 1) + 1 = j := by omega
    have hcyc := hchain i (j - i - 1)
    rw [harith, heq] at hcyc
    exact hcyc
  · refine ⟨(pickPred ts (acc.map Task.name))^[i] r0, ?_⟩
    have harith : j + (i - j - 1) + 1 = i := by omega
    have hcyc := hchain j (i - j - 1)
    rw [harith, ← heq] at hcyc
    exact hcyc

/-! ## `DAG.Validate` (src/internal/dag/dag.go, lines 157-203)

The Go code checks, in order: empty workflow name; no tasks; then per task
(in map-iteration order): duplicate name against a `seen` set, the name
pattern `^[a-zA-Z0-9_-]+$`, empty command, and each dependency resolving in
the task map (first offender reported); finally it runs `TopologicalSort`
and propagates its cycle error. -/

/-- The error kinds of `Validate` (the Go code returns `fmt.Errorf` values;
the constructors stand for the distinct messages). -/
inductive ValidationError where
  | emptyWorkflowName : ValidationError
  | noTasks : ValidationError
  | duplicateTask (name : String) : ValidationError
  | invalidTaskName (name : String) : ValidationError
  | missingCommand (name : String) : ValidationError
  | missingDependency (task dep : String) : ValidationError
  | cycle : ValidationError
  deriving Repr, DecidableEq

/-- `taskNamePattern.MatchString(name)` for `^[a-zA-Z0-9_-]+$`. -/
def validTaskName (s : String) : Bool :=
  (!(s == "")) && s.toList.all (fun c => c.isAlphanum || c == '_' || c == '-')

/-- The per-task loop body of `Validate`, iterating in map order and
threading the `seen` set. -/
def checkTasks (all : List Task) : List Task → List String → Option ValidationError
  | [], _ => none
  | t :: rest, seen =>
    if t.name ∈ seen then some (.duplicateTask t.name)
    else if !(validTaskName t.name) then some (.invalidTaskName t.name)
    else if t.cmd == "" then some (.missingCommand t.name)
    else
      match t.dependsOn.find? (fun dep => !((lookupTask all dep).isSome)) with
      | some dep => some (.missingDependency t.name dep)
      | none => checkTasks all rest (t.name :: seen)

/-- Embedding of `DAG.Validate`; `none` means the graph is accepted. -/
def Validate (d : DAG) : Option ValidationError :=
  if d.name == "" then some .emptyWorkflowName
  else if d.tasks.length == 0 then some .noTasks
  else
    match checkTasks d.tasks d.tasks [] with
    | some e => some e
    | none =>
      match TopologicalSort d with
      | .error _ => some .cycle
      | .ok _ => none

theorem checkTasks_none_closed (all : List Task) :
    ∀ (l : List Task) (seen : List String), checkTasks all l seen = none →
      ∀ t ∈ l, ∀ dep ∈ t.dependsOn, dep ∈ taskNames all := by
  intro l
  induction l with
  | nil =>
    intro seen _ t ht
    cases ht
  | cons t rest ih =>
    intro seen hchk u hu dep hdep
    rw [checkTasks] at hchk
    split_ifs at hchk
    rcases hfind : t.dependsOn.find? (fun dep => !((lookupTask all dep).isSome)) with _ | d2
    · rw [hfind] at hchk
      rcases List.mem_cons.mp hu with h1 | h1
      · subst h1
        have hall := List.find?_eq_none.mp hfind dep hdep
        rw [← lookupTask_isSome_iff, Option.isSome_iff_ne_none]
        simpa using hall
      · exact ih _ hchk u h1 dep hdep
    · rw [hfind] at hchk
      cases hchk

theorem checkTasks_none_nodup (all : List Task) :
    ∀ (l : List Task) (seen : List String), checkTasks all l seen = none →
      (taskNames l).Nodup ∧ ∀ x ∈ taskNames l, x ∉ seen := by
  intro l
  induction l with
  | nil =>
    intro seen _
    exact ⟨List.nodup_nil, fun x hx => absurd hx (List.not_mem_nil x)⟩
  | cons t rest ih =>
    intro seen hchk
    rw [checkTasks] at hchk
    split_ifs at hchk with h1 h2 h3
    rcases hfind : t.dependsOn.find? (fun dep => !((lookupTask all dep).isSome)) with _ | d2
    · rw [hfind] at hchk
      obtain ⟨hnd, hdisj⟩ := ih _ hchk
      constructor
      · rw [taskNames, List.map_cons, List.nodup_cons]
        refine ⟨?_, hnd⟩
        intro hmem
        exact hdisj t.name hmem (List.mem_cons_self _ _)
      · intro x hx
        rw [taskNames, List.map_cons, List.mem_cons] at hx
        rcases hx with hx | hx
        · subst hx
          exact h1
        · intro hxs
          exact hdisj x hx (List.mem_cons_of_mem _ hxs)
    · rw [hfind] at hchk
      cases hchk

theorem validate_none_parts (d : DAG) (h : Validate d = none) :
    checkTasks d.tasks d.tasks [] = none ∧ ∃ l, TopologicalSort d = Except.ok l := by
  rw [Validate] at h
  split_ifs at h
  rcases hchk : checkTasks d.tasks d.tasks [] with _ | e
  · rw [hchk] at h
    rcases htopo : TopologicalSort d with e2 | l
    · rw [htopo] at h
      cases h
    · exact ⟨rfl, l, rfl⟩
  · rw [hchk] at h
    cases h

theorem validate_none_nodup (d : DAG) (h : Validate d = none) :
    (taskNames d.tasks).Nodup :=
  (checkTasks_none_nodup d.tasks d.tasks [] (validate_none_parts d h).1).1

theorem validate_none_closed (d : DAG) (h : Validate d = none) :
    closedDeps d.tasks :=
  checkTasks_none_closed d.tasks d.tasks [] (validate_none_parts d h).1

/-- For a graph with distinct names and in-graph dependencies,
`TopologicalSort` either returns a dependency-respecting permutation of the
tasks, or returns the cycle error and the graph really has a cycle. -/
theorem topologicalSort_complete (d : DAG) (hN : (taskNames d.tasks).Nodup)
    (hC : closedDeps d.tasks) :
    (∃ l, TopologicalSort d = Except.ok l ∧ l.Perm d.tasks ∧ respectsDeps l) ∨
    (TopologicalSort d = Except.error "cycle detected in DAG" ∧ HasCycle d.tasks) := by
  obtain ⟨degF, invF⟩ := kahnLoop_spec d.tasks hN _ _ _ (kahnInv_init d.tasks hN)
  by_cases hlen : (kahnLoop d.tasks (neighborsOf d.tasks)
      (((buildInDegree d.tasks).filter (fun e => e.2 == 0)).map (fun e => e.1))
      (buildInDegree d.tasks) []).length = d.tasks.length
  · left
    refine ⟨_, ?_, kahn_result_perm d.tasks hN invF hlen, invF.order⟩
    simp only [TopologicalSort]
    rw [if_pos hlen]
  · right
    constructor
    · simp only [TopologicalSort]
      rw [if_neg hlen]
    · exact kahn_incomplete_cycle d.tasks hN hC invF hlen

/-- C1: for every graph accepted by `Validate`, `TopologicalSort` returns a
permutation of the graph's tasks in which every dependency appears before
its dependent; and (under the Go map invariant of distinct task names, with
dependencies resolving inside the graph) `TopologicalSort` returns the
cycle error exactly when the dependency relation is not acyclic. -/
theorem c1_topological_sort_correct (d : DAG) :
    (Validate d = none →
      ∃ l, TopologicalSort d = Except.ok l ∧ l.Perm d.tasks ∧ respectsDeps l) ∧
    ((taskNames d.tasks).Nodup → closedDeps d.tasks →
      (TopologicalSort d = Except.error "cycle detected in DAG" ↔ HasCycle d.tasks)) := by
  constructor
  · intro hv
    have hN := validate_none_nodup d hv
    have hC := validate_none_closed d hv
    rcases topologicalSort_complete d hN hC with h | h
    · exact h
    · obtain ⟨l, hok⟩ := (validate_none_parts d hv).2
      rw [h.1] at hok
      cases hok
  · intro hN hC
    constructor
    · intro herr
      rcases topologicalSort_complete d hN hC with ⟨l, hok, _⟩ | h
      · rw [hok] at herr
        cases herr
      · exact h.2
    · intro hcyc
      rcases topologicalSort_complete d hN hC with ⟨l, hok, hperm, hord⟩ | h
      · exact absurd hcyc (respectsDeps_no_cycle d.tasks l hN hC hperm hord)
      · exact h.1

/-- A small accepted graph used to witness the theorems at a concrete input. -/
def exampleDAG : DAG :=
  ⟨"wf", [⟨"b", "make b", ["a"], 0⟩, ⟨"a", "make a", [], 0⟩]⟩

theorem c1_topological_sort_correct_witness :
    (∃ l, TopologicalSort exampleDAG = Except.ok l ∧ l.Perm exampleDAG.tasks ∧
        respectsDeps l) ∧
    (TopologicalSort exampleDAG = Except.error "cycle detected in DAG" ↔
        HasCycle exampleDAG.tasks) :=
  ⟨(c1_topological_sort_correct exampleDAG).1 (by rfl),
   (c1_topological_sort_correct exampleDAG).2 (by decide)
     (by unfold closedDeps; decide)⟩

/-! ## C2: determinism and the tie-break discipline

The Go loop seeds the queue from (unsorted, randomised) map iteration and
pops FIFO; only each popped task's outgoing neighbor list is sorted.  The
graph `m; b←m; z←m; a←b` therefore yields `[m,b,z,a]` — after `b` is
emitted both `a` and `z` are ready, yet `z` (queued earlier) precedes the
lexicographically smaller `a`.  And the two-root graph `{a, z}` yields
whichever iteration order the map produces, so equal graphs inserted in
different orders give different orderings. -/

def fifoDAG : DAG :=
  ⟨"wf", [⟨"a", "run a", ["b"], 0⟩, ⟨"b", "run b", ["m"], 0⟩,
          ⟨"m", "run m", [], 0⟩, ⟨"z", "run z", ["m"], 0⟩]⟩

def azDAG : DAG := ⟨"pair", [⟨"a", "run a", [], 0⟩, ⟨"z", "run z", [], 0⟩]⟩

def zaDAG : DAG := ⟨"pair", [⟨"z", "run z", [], 0⟩, ⟨"a", "run a", [], 0⟩]⟩

/-- C2 counterexample: the ready queue is not re-sorted lexicographically —
`fifoDAG` is accepted by `Validate`, after emitting `[m, b]` both `a`
(dependency `b`) and `z` (dependency `m`) have no remaining incoming edges,
yet the output is `[m, b, z, a]`, not the lexicographic `[m, b, a, z]`;
and the same two-task graph presented in two insertion orders produces two
different orderings. -/
theorem c2_counterexample :
    (Validate fifoDAG = none ∧
      (TopologicalSort fifoDAG).map (fun l => l.map Task.name)
        = Except.ok ["m", "b", "z", "a"] ∧
      (strLeB "a" "z" = true ∧ "a" ≠ "z") ∧
      depsOf fifoDAG.tasks "a" = ["b"] ∧ depsOf fifoDAG.tasks "z" = ["m"] ∧
      ["m", "b", "z", "a"] ≠ ["m", "b", "a", "z"]) ∧
    (azDAG.name = zaDAG.name ∧ azDAG.tasks.Perm zaDAG.tasks ∧
      (TopologicalSort azDAG).map (fun l => l.map Task.name)
        = Except.ok ["a", "z"] ∧
      (TopologicalSort zaDAG).map (fun l => l.map Task.name)
        = Except.ok ["z", "a"]) := by
  refine ⟨⟨rfl, rfl, by decide, rfl, rfl, by decide⟩, ⟨rfl, by decide, rfl, rfl⟩⟩

/-- The claim's concrete example graph: `a`; `b` and `c` depend on `a`;
`d` depends on `b` and `c`. -/
def exTasksABCD : List Task :=
  [⟨"a", "run a", [], 0⟩, ⟨"b", "run b", ["a"], 0⟩,
   ⟨"c", "run c", ["a"], 0⟩, ⟨"d", "run d", ["b", "c"], 0⟩]

/-- C2 amended: the order is FIFO over the map iteration order, with each
popped task's neighbor list sorted, so it is not the lexicographic-ready-
queue order in general; but on the claim's example graph every map
iteration order does produce `[a, b, c, d]`. -/
theorem c2_amended_example_deterministic (ts : List Task) (h : ts.Perm exTasksABCD) :
    (TopologicalSort ⟨"wf", ts⟩).map (fun l => l.map Task.name)
      = Except.ok ["a", "b", "c", "d"] := by
  have hmem : ts ∈ exTasksABCD.permutations' := List.mem_permutations'.mpr h
  have hall : ∀ l ∈ exTasksABCD.permutations',
      (TopologicalSort ⟨"wf", l⟩).map (fun l2 => l2.map Task.name)
        = Except.ok ["a", "b", "c", "d"] := by decide
  exact hall ts hmem

theorem c2_amended_example_deterministic_witness :
    exTasksABCD.Perm exTasksABCD ∧
    (TopologicalSort ⟨"wf", exTasksABCD⟩).map (fun l => l.map Task.name)
      = Except.ok ["a", "b", "c", "d"] :=
  ⟨List.Perm.refl _, c2_amended_example_deterministic exTasksABCD (List.Perm.refl _)⟩

/-! ## C10: the duplicate-task-name error is unreachable -/

theorem checkTasks_no_dup (all : List Task) :
    ∀ (l : List Task) (seen : List String), (seen ++ taskNames l).Nodup →
      ∀ n, checkTasks all l seen ≠ some (ValidationError.duplicateTask n) := by
  intro l
  induction l with
  | nil =>
    intro seen _ n h
    rw [checkTasks] at h
    cases h
  | cons t rest ih =>
    intro seen hnd n h
    have hnames : taskNames (t :: rest) = t.name :: taskNames rest := rfl
    rw [hnames] at hnd
    have hnd2 : (t.name :: (seen ++ taskNames rest)).Nodup :=
      (List.perm_middle.nodup_iff).mp hnd
    rw [checkTasks] at h
    by_cases h1 : t.name ∈ seen
    · exfalso
      rw [List.nodup_append] at hnd
      exact hnd.2.2 h1 (List.mem_cons_self _ _)
    · rw [if_neg h1] at h
      split_ifs at h with h2 h3
      · simp at h
      · simp at h
      · rcases hfind : t.dependsOn.find? (fun dep => !((lookupTask all dep).isSome))
            with _ | d2
        · rw [hfind] at h
          refine ih (t.name :: seen) ?_ n h
          rw [List.cons_append]
          exact hnd2
        · rw [hfind] at h
          simp at h

/-- C10: for every DAG value satisfying the Go map invariant (distinct task
names), `Validate` can never return the duplicate-task-name error. -/
theorem c10_duplicate_unreachable (d : DAG) (hN : (taskNames d.tasks).Nodup)
    (n : String) : Validate d ≠ some (ValidationError.duplicateTask n) := by
  intro h
  rw [Validate] at h
  split_ifs at h with h1 h2
  · simp at h
  · simp at h
  · rcases hchk : checkTasks d.tasks d.tasks [] with _ | e
    · rw [hchk] at h
      rcases htopo : TopologicalSort d with e2 | l <;> rw [htopo] at h <;> simp at h
    · rw [hchk] at h
      have hno := checkTasks_no_dup d.tasks d.tasks [] (by simpa using hN) n
      rw [hchk] at hno
      exact hno h

theorem c10_duplicate_unreachable_witness :
    (taskNames exampleDAG.tasks).Nodup ∧
    Validate exampleDAG ≠ some (ValidationError.duplicateTask "a") :=
  ⟨by decide, c10_duplicate_unreachable exampleDAG (by decide) "a"⟩

/-! ## `DAG.ComputeHash` (src/internal/dag/dag.go, lines 25-68)

The Go code snapshots every task with its dependency list copied and
sorted (`sort.Strings`), sorts the snapshots by task name (`sort.Slice`
with `<` on names), wraps them with the workflow name, marshals the result
to JSON and returns the hex encoding of its SHA-256 digest.  `json.Marshal`
cannot fail on these types, so the embedding is total.  The snapshot slice
is `nil` (marshalled `null`) when there are no tasks; each `deps` slice is
`make`-allocated, hence marshalled `[]` even when empty. -/

def hexDigits : List Char := "0123456789abcdef".toList

/-- Go `encoding/json` string escaping (including its default HTML escapes). -/
def jsonEscapeChar (c : Char) : String :=
  if c = '"' then "\\\""
  else if c = '\\' then "\\\\"
  else if c = '\n' then "\\n"
  else if c = '\r' then "\\r"
  else if c = '\t' then "\\t"
  else if c.toNat < 32 then
    "\\u00" ++ String.mk [hexDigits.getD (c.toNat / 16) '0',
                          hexDigits.getD (c.toNat % 16) '0']
  else if c = '<' then "\\u003c"
  else if c = '>' then "\\u003e"
  else if c = '&' then "\\u0026"
  else String.mk [c]

def jsonString (s : String) : String :=
  "\"" ++ String.join (s.toList.map jsonEscapeChar) ++ "\""

/-- `sort.Strings`. -/
def sortStrings (l : List String) : List String :=
  List.insertionSort (fun a b => strLeB a b = true) l

/-- The Go `taskSnapshot` struct of `ComputeHash` (dependency list already
copied and sorted). -/
structure TaskSnapshot where
  name : String
  cmd : String
  dependsOn : List String
  retries : Int
  deriving Repr, DecidableEq

def taskSnapshot (t : Task) : TaskSnapshot :=
  ⟨t.name, t.cmd, sortStrings t.dependsOn, t.retries⟩

/-- `json.Marshal` of one `taskSnapshot` (field order `name`, `cmd`,
`depends_on`, `retries`, as in the struct tags). -/
def snapshotJson (s : TaskSnapshot) : String :=
  "\x7b\"name\":" ++ jsonString s.name ++ ",\"cmd\":" ++ jsonString s.cmd ++
    ",\"depends_on\":[" ++ String.intercalate "," (s.dependsOn.map jsonString) ++
    "],\"retries\":" ++ toString s.retries ++ "\x7d"

/-- `json.Marshal` of the `dagSnapshot`: the workflow name plus the task
snapshots sorted by name (`sort.Slice` on a map-order list; the list order
is irrelevant once sorted, for distinct names). -/
def canonicalJson (d : DAG) : String :=
  "\x7b\"name\":" ++ jsonString d.name ++ ",\"tasks\":" ++
    (if d.tasks.isEmpty then "null"
     else "[" ++ String.intercalate ","
        ((List.insertionSort (fun a b => strLeB a.name b.name = true)
          (d.tasks.map taskSnapshot)).map snapshotJson) ++ "]") ++ "\x7d"

/-! ### SHA-256 over byte lists (crypto/sha256), words as `Nat % 2^32` -/

def w32 (x : Nat) : Nat := x % 4294967296

def rotr32 (n x : Nat) : Nat := w32 ((x >>> n) ||| (x <<< (32 - n)))

def shaCh (x y z : Nat) : Nat := (x &&& y) ^^^ ((x ^^^ 4294967295) &&& z)

def shaMaj (x y z : Nat) : Nat := (x &&& y) ^^^ (x &&& z) ^^^ (y &&& z)

def shaS0 (x : Nat) : Nat := rotr32 2 x ^^^ rotr32 13 x ^^^ rotr32 22 x

def shaS1 (x : Nat) : Nat := rotr32 6 x ^^^ rotr32 11 x ^^^ rotr32 25 x

def shaG0 (x : Nat) : Nat := rotr32 7 x ^^^ rotr32 18 x ^^^ (x >>> 3)

def shaG1 (x : Nat) : Nat := rotr32 17 x ^^^ rotr32 19 x ^^^ (x >>> 10)

def sha256H0 : List Nat :=
  [1779033703, 3144134277, 1013904242, 2773480762,
   1359893119, 2600822924, 528734635, 1541459225]

def sha256K : List Nat :=
  [1116352408, 1899447441, 3049323471, 3921009573, 961987163,
   1508970993, 2453635748, 2870763221, 3624381080, 310598401,
   607225278, 1426881987, 1925078388, 2162078206, 2614888103,
   3248222580, 3835390401, 4022224774, 264347078, 604807628,
   770255983, 1249150122, 1555081692, 1996064986, 2554220882,
   2821834349, 2952996808, 3210313671, 3336571891, 3584528711,
   113926993, 338241895, 666307205, 773529912, 1294757372,
   1396182291, 1695183700, 1986661051, 2177026350, 2456956037,
   2730485921, 2820302411, 3259730800, 3345764771, 3516065817,
   3600352804, 4094571909, 275423344, 430227734, 506948616,
   659060556, 883997877, 958139571, 1322822218, 1537002063,
   1747873779, 1955562222, 2024104815, 2227730452, 2361852424,
   2428436474, 2756734187, 3204031479, 3329325298]

def beBytes (k : Nat) (n : Nat) : List Nat :=
  (List.range k).reverse.map (fun i => (n >>> (8 * i)) % 256)

def sha256pad (msg : List Nat) : List Nat :=
  msg ++ [128] ++ List.replicate ((64 + 55 - msg.length % 64) % 64) 0
    ++ beBytes 8 (msg.length * 8)

def toWords32 : List Nat → List Nat
  | a :: b :: c :: d :: rest => (((a * 256 + b) * 256 + c) * 256 + d) :: toWords32 rest
  | _ => []

def toBlocks16F : Nat → List Nat → List (List Nat)
  | 0, _ => []
  | _, [] => []
  | f + 1, ws => ws.take 16 :: toBlocks16F f (ws.drop 16)

def toBlocks16 (ws : List Nat) : List (List Nat) := toBlocks16F ws.length ws

def shaExtend : Nat → List Nat → List Nat
  | 0, rw => rw
  | k + 1, rw =>
    shaExtend k (w32 (shaG1 (rw.getD 1 0) + rw.getD 6 0
      + shaG0 (rw.getD 14 0) + rw.getD 15 0) :: rw)

def shaSchedule (block : List Nat) : List Nat := (shaExtend 48 block.reverse).reverse

def shaRound (st : List Nat) (wk : Nat × Nat) : List Nat :=
  let a := st.getD 0 0
  let b := st.getD 1 0
  let c := st.getD 2 0
  let d := st.getD 3 0
  let e := st.getD 4 0
  let f := st.getD 5 0
  let g := st.getD 6 0
  let h := st.getD 7 0
  let t1 := w32 (h + shaS1 e + shaCh e f g + wk.2 + wk.1)
  let t2 := w32 (shaS0 a + shaMaj a b c)
  [w32 (t1 + t2), a, b, c, w32 (d + t1), e, f, g]

def shaCompress (h : List Nat) (block : List Nat) : List Nat :=
  let st := ((shaSchedule block).zip sha256K).foldl shaRound h
  (h.zip st).map (fun p => w32 (p.1 + p.2))

def hex8 (n : Nat) : String :=
  String.mk ((List.range 8).reverse.map (fun i => hexDigits.getD ((n >>> (4 * i)) % 16) '0'))

def sha256Hex (msg : List Nat) : String :=
  String.join (((toBlocks16 (toWords32 (sha256pad msg))).foldl shaCompress sha256H0).map hex8)

def strBytes (s : String) : List Nat := s.toUTF8.toList.map (fun b => b.toNat)

/-- Embedding of `DAG.ComputeHash`: hex-encoded SHA-256 of the canonical
JSON serialisation. -/
def ComputeHash (d : DAG) : String := sha256Hex (strBytes (canonicalJson d))

/-! ### The `sort.Strings` order is total, transitive and antisymmetric -/

theorem chListLe_total : ∀ (as bs : List Char),
    chListLe as bs = true ∨ chListLe bs as = true := by
  intro as
  induction as with
  | nil =>
    intro bs
    left
    rfl
  | cons a as ih =>
    intro bs
    match bs with
    | [] =>
      right
      rfl
    | b :: bs2 =>
      rcases Nat.lt_trichotomy a.toNat b.toNat with h | h | h
      · left
        rw [chListLe, if_pos h]
      · have hab : ¬ a.toNat < b.toNat := by omega
        have hba : ¬ b.toNat < a.toNat := by omega
        rcases ih bs2 with h2 | h2
        · left
          rw [chListLe, if_neg hab, if_neg hba]
          exact h2
        · right
          rw [chListLe, if_neg hba, if_neg hab]
          exact h2
      · right
        rw [chListLe, if_pos h]

theorem chListLe_trans : ∀ (as bs cs : List Char), chListLe as bs = true →
    chListLe bs cs = true → chListLe as cs = true := by
  intro as
  induction as with
  | nil =>
    intro bs cs _ _
    rfl
  | cons a as ih =>
    intro bs cs h1 h2
    match bs with
    | [] => cases h1
    | b :: bs2 =>
      match cs with
      | [] => cases h2
      | c :: cs2 =>
        rw [chListLe] at h1 h2 ⊢
        by_cases hab : a.toNat < b.toNat
        · by_cases hbc : b.toNat < c.toNat
          · rw [if_pos (by omega)]
          · rw [if_pos hab] at h1
            by_cases hcb : c.toNat < b.toNat
            · rw [if_neg hbc, if_pos hcb] at h2
              cases h2
            · rw [if_pos (by omega)]
        · by_cases hba : b.toNat < a.toNat
          · rw [if_neg hab, if_pos hba] at h1
            cases h1
          · by_cases hbc : b.toNat < c.toNat
            · rw [if_pos (by omega)]
            · by_cases hcb : c.toNat < b.toNat
              · rw [if_neg hbc, if_pos hcb] at h2
                cases h2
              · rw [if_neg hab, if_neg hba] at h1
                rw [if_neg hbc, if_neg hcb] at h2
                rw [if_neg (by omega), if_neg (by omega)]
                exact ih bs2 cs2 h1 h2

theorem chListLe_antisymm : ∀ (as bs : List Char), chListLe as bs = true →
    chListLe bs as = true → as = bs := by
  intro as
  induction as with
  | nil =>
    intro bs h1 h2
    match bs with
    | [] => rfl
    | b :: bs2 => cases h2
  | cons a as ih =>
    intro bs h1 h2
    match bs with
    | [] => cases h1
    | b :: bs2 =>
      rw [chListLe] at h1 h2
      by_cases hab : a.toNat < b.toNat
      · rw [if_neg (by omega), if_pos hab] at h2
        cases h2
      · by_cases hba : b.toNat < a.toNat
        · rw [if_neg hab, if_pos hba] at h1
          cases h1
        · rw [if_neg hab, if_neg hba] at h1
          rw [if_neg hba, if_neg hab] at h2
          have hn : a.toNat = b.toNat := by omega
          have hc : a = b := Char.eq_of_val_eq (UInt32.ext hn)
          rw [hc, ih bs2 h1 h2]

theorem strLeB_total (a b : String) : strLeB a b = true ∨ strLeB b a = true :=
  chListLe_total a.toList b.toList

theorem strLeB_trans (a b c : String) (h1 : strLeB a b = true)
    (h2 : strLeB b c = true) : strLeB a c = true :=
  chListLe_trans a.toList b.toList c.toList h1 h2

theorem strLeB_antisymm (a b : String) (h1 : strLeB a b = true)
    (h2 : strLeB b a = true) : a = b := by
  have h := chListLe_antisymm a.toList b.toList h1 h2
  cases a
  cases b
  simp only [String.toList] at h
  rw [h]

instance : IsTotal String (fun a b => strLeB a b = true) := ⟨strLeB_total⟩

instance : IsTrans String (fun a b => strLeB a b = true) := ⟨strLeB_trans⟩

instance : IsAntisymm String (fun a b => strLeB a b = true) := ⟨strLeB_antisymm⟩

instance : IsTotal TaskSnapshot (fun a b => strLeB a.name b.name = true) :=
  ⟨fun a b => strLeB_total a.name b.name⟩

instance : IsTrans TaskSnapshot (fun a b => strLeB a.name b.name = true) :=
  ⟨fun a b c => strLeB_trans a.name b.name c.name⟩

/-! ### C4: hash invariance under reordering -/

theorem sortStrings_eq_of_perm (l1 l2 : List String) (h : l1.Perm l2) :
    sortStrings l1 = sortStrings l2 :=
  @List.eq_of_perm_of_sorted String (fun a b => strLeB a b = true) _ _ _
    (((List.perm_insertionSort _ l1).trans h).trans
      (List.perm_insertionSort _ l2).symm)
    (List.sorted_insertionSort _ l1) (List.sorted_insertionSort _ l2)

/-- Same name, command and retry budget, dependency lists equal as multisets. -/
def taskEquivUpToDeps (t1 t2 : Task) : Prop :=
  t1.name = t2.name ∧ t1.cmd = t2.cmd ∧ t1.retries = t2.retries ∧
    t1.dependsOn.Perm t2.dependsOn

/-- `d2` is `d1` with the task-map insertion order permuted and each task's
dependency list permuted. -/
def dagEquivUpToOrder (d1 d2 : DAG) : Prop :=
  d1.name = d2.name ∧
    ∃ l, List.Forall₂ taskEquivUpToDeps d1.tasks l ∧ l.Perm d2.tasks

theorem taskSnapshot_eq_of_equiv {t1 t2 : Task} (h : taskEquivUpToDeps t1 t2) :
    taskSnapshot t1 = taskSnapshot t2 := by
  obtain ⟨h1, h2, h3, h4⟩ := h
  unfold taskSnapshot
  rw [h1, h2, h3, sortStrings_eq_of_perm _ _ h4]

theorem snapshots_eq_of_forall₂ {l1 l2 : List Task}
    (h : List.Forall₂ taskEquivUpToDeps l1 l2) :
    l1.map taskSnapshot = l2.map taskSnapshot := by
  induction h with
  | nil => rfl
  | cons hab ht ih =>
    rw [List.map_cons, List.map_cons, ih, taskSnapshot_eq_of_equiv hab]

/-- Two name-sorted snapshot lists that are permutations of each other and
have distinct names are equal. -/
theorem sorted_snapshots_unique :
    ∀ (l1 l2 : List TaskSnapshot), l1.Perm l2 →
      l1.Sorted (fun a b => strLeB a.name b.name = true) →
      l2.Sorted (fun a b => strLeB a.name b.name = true) →
      (l1.map TaskSnapshot.name).Nodup → l1 = l2 := by
  intro l1
  induction l1 with
  | nil =>
    intro l2 hp _ _ _
    exact (hp.symm.eq_nil).symm
  | cons x1 t1 ih =>
    intro l2 hp hs1 hs2 hnd
    match l2 with
    | [] => exact absurd hp.eq_nil (by simp)
    | x2 :: t2 =>
      have hx : x1 = x2 := by
        by_cases hx12 : x1 = x2
        · exact hx12
        · exfalso
          have hx2mem : x2 ∈ x1 :: t1 := hp.mem_iff.mpr (List.mem_cons_self _ _)
          have hx1mem : x1 ∈ x2 :: t2 := hp.mem_iff.mp (List.mem_cons_self _ _)
          have hx2t1 : x2 ∈ t1 :=
            (List.mem_cons.mp hx2mem).resolve_left (fun he => hx12 he.symm)
          have hx1t2 : x1 ∈ t2 := (List.mem_cons.mp hx1mem).resolve_left hx12
          have h12 : strLeB x1.name x2.name = true :=
            (List.sorted_cons.mp hs1).1 x2 hx2t1
          have h21 : strLeB x2.name x1.name = true :=
            (List.sorted_cons.mp hs2).1 x1 hx1t2
          have hnameeq : x1.name = x2.name := strLeB_antisymm _ _ h12 h21
          rw [List.map_cons, List.nodup_cons] at hnd
          apply hnd.1
          rw [hnameeq]
          exact List.mem_map_of_mem TaskSnapshot.name hx2t1
      subst hx
      have hpt := hp.cons_inv
      have hnd2 : (t1.map TaskSnapshot.name).Nodup := by
        rw [List.map_cons, List.nodup_cons] at hnd
        exact hnd.2
      rw [ih t2 hpt (List.sorted_cons.mp hs1).2 (List.sorted_cons.mp hs2).2 hnd2]

/-- C4: `ComputeHash` is invariant under permutation of the task-map
insertion order and of each task's dependency list (for the name-keyed map
invariant of distinct task names). -/
theorem c4_computeHash_invariant (d1 d2 : DAG)
    (hN : (taskNames d1.tasks).Nodup) (h : dagEquivUpToOrder d1 d2) :
    ComputeHash d1 = ComputeHash d2 := by
  obtain ⟨hname, l, hf, hp⟩ := h
  have hsnapperm : (d1.tasks.map taskSnapshot).Perm (d2.tasks.map taskSnapshot) := by
    rw [snapshots_eq_of_forall₂ hf]
    exact hp.map taskSnapshot
  have hnamespres : (d1.tasks.map taskSnapshot).map TaskSnapshot.name
      = taskNames d1.tasks := by
    rw [List.map_map]
    rfl
  have hsorteq : List.insertionSort (fun a b => strLeB a.name b.name = true)
        (d1.tasks.map taskSnapshot)
      = List.insertionSort (fun a b => strLeB a.name b.name = true)
        (d2.tasks.map taskSnapshot) := by
    apply sorted_snapshots_unique
    · exact ((List.perm_insertionSort _ _).trans hsnapperm).trans
        (List.perm_insertionSort _ _).symm
    · exact List.sorted_insertionSort _ _
    · exact List.sorted_insertionSort _ _
    · have hpn : ((List.insertionSort (fun a b => strLeB a.name b.name = true)
          (d1.tasks.map taskSnapshot)).map TaskSnapshot.name).Perm
            (taskNames d1.tasks) := by
        rw [← hnamespres]
        exact (List.perm_insertionSort _ _).map TaskSnapshot.name
      exact hpn.nodup_iff.mpr hN
  have hlen : d1.tasks.length = d2.tasks.length := by
    rw [hf.length_eq, hp.length_eq]
  have hempty : d1.tasks.isEmpty = d2.tasks.isEmpty := by
    rcases h1 : d1.tasks with _ | ⟨x, xs⟩ <;> rcases h2 : d2.tasks with _ | ⟨y, ys⟩ <;>
      rw [h1, h2] at hlen <;> simp_all
  unfold ComputeHash
  unfold canonicalJson
  rw [hname, hsorteq, hempty]

/-- Concrete pair of graphs for the witness: same tasks, permuted insertion
order and permuted dependency list. -/
def hashDAG1 : DAG :=
  ⟨"wf", [⟨"c", "run c", ["a", "b"], 1⟩, ⟨"a", "run a", [], 0⟩, ⟨"b", "run b", [], 2⟩]⟩

def hashDAG2 : DAG :=
  ⟨"wf", [⟨"a", "run a", [], 0⟩, ⟨"b", "run b", [], 2⟩, ⟨"c", "run c", ["b", "a"], 1⟩]⟩

theorem c4_computeHash_invariant_witness :
    (taskNames hashDAG1.tasks).Nodup ∧ dagEquivUpToOrder hashDAG1 hashDAG2 ∧
    ComputeHash hashDAG1 = ComputeHash hashDAG2 := by
  have hequiv : dagEquivUpToOrder hashDAG1 hashDAG2 := by
    refine ⟨rfl, [⟨"c", "run c", ["b", "a"], 1⟩, ⟨"a", "run a", [], 0⟩,
      ⟨"b", "run b", [], 2⟩], ?_, by decide⟩
    refine List.Forall₂.cons ⟨rfl, rfl, rfl, by decide⟩ ?_
    refine List.Forall₂.cons ⟨rfl, rfl, rfl, by decide⟩ ?_
    exact List.Forall₂.cons ⟨rfl, rfl, rfl, by decide⟩ List.Forall₂.nil
  exact ⟨by decide, hequiv, c4_computeHash_invariant hashDAG1 hashDAG2 (by decide) hequiv⟩

/-! ## The run store and the executor

Embedding of `internal/run` (store.go, the models) and
`internal/executor` (src/unnamed/part_002).  Side effects are made
explicit: the SQLite store becomes a pure `StoreState`; `time.Now()`
becomes a tick counter; process spawns are recorded in an event list; the
outcomes of the effectful calls (child-process results, store errors,
context cancellation, `os.MkdirAll`, `dag.Load`) are supplied by an
oracle `Env`.  Store write errors that the Go code discards with `_ =`
leave the store unchanged and are dropped, exactly as the code does. -/

inductive WorkflowStatus where
  | pending : WorkflowStatus
  | running : WorkflowStatus
  | success : WorkflowStatus
  | failed : WorkflowStatus
  deriving Repr, DecidableEq

inductive TaskStatus where
  | pending : TaskStatus
  | running : TaskStatus
  | success : TaskStatus
  | failed : TaskStatus
  deriving Repr, DecidableEq

/-- `run.WorkflowRun` (timestamps are clock ticks; `meta` elided as the
executor never sets it before the claims' observation points). -/
structure WorkflowRun where
  id : String
  workflow : String
  workflowHash : String
  status : WorkflowStatus
  startedAt : Nat
  endedAt : Option Nat
  exitCode : Option Int
  createdAt : Nat
  deriving Repr, DecidableEq

/-- `run.TaskRun`; `id` is the SQLite surrogate key (`LastInsertId`). -/
structure TaskRun where
  id : Nat
  runId : String
  name : String
  status : TaskStatus
  startedAt : Nat
  endedAt : Option Nat
  attempts : Int
  exitCode : Option Int
  logPath : String
  lastError : String
  deriving Repr, DecidableEq

/-- The two tables of the SQLite store. -/
structure StoreState where
  runs : List WorkflowRun
  taskRuns : List TaskRun
  deriving Repr, DecidableEq

/-- `UPDATE workflow_runs ... WHERE id = ?`. -/
def storeUpdateRunRows (rows : List WorkflowRun) (wr : WorkflowRun) : List WorkflowRun :=
  rows.map (fun r => if r.id = wr.id then wr else r)

/-- `UPDATE task_runs ... WHERE id = ?`. -/
def storeUpdateTaskRows (rows : List TaskRun) (tr : TaskRun) : List TaskRun :=
  rows.map (fun r => if r.id = tr.id then tr else r)

/-- `INSERT INTO task_runs ...` followed by `LastInsertId`, which the Go
code writes back into the passed-in record. -/
def storeSaveTaskRun (rows : List TaskRun) (tr : TaskRun) : TaskRun × List TaskRun :=
  let tr2 := { tr with id := rows.length }
  (tr2, rows ++ [tr2])

/-- `GetTaskRun(run_id, name)` (`sql.ErrNoRows` becomes `none`). -/
def storeGetTaskRun (rows : List TaskRun) (runId name : String) : Option TaskRun :=
  rows.find? (fun r => r.runId == runId && r.name == name)

/-- Executor-visible machine state: the store, the spawn event log
(task name, attempt ordinal — one entry per `cmd.CombinedOutput()` call),
and the wall clock. -/
structure ExecState where
  store : StoreState
  spawns : List (String × Int)
  clock : Nat
  deriving Repr, DecidableEq

def tick (s : ExecState) : Nat × ExecState :=
  (s.clock, { s with clock := s.clock + 1 })

/-- Outcome of one `cmd.CombinedOutput()` call: success, an
`*exec.ExitError` with an exit code, or any other start/wait error. -/
inductive SpawnOutcome where
  | ok : SpawnOutcome
  | exitErr (code : Int) (msg : String) : SpawnOutcome
  | startErr (msg : String) : SpawnOutcome
  deriving Repr, DecidableEq

/-- Oracle for the effectful calls the executor makes. -/
structure Env where
  runId : String
  cancelAt : Nat → Bool
  outcome : String → Int → SpawnOutcome
  newRunErr : Option String
  saveTaskErr : String → Option String
  updateTaskErr : String → Option String
  updateRunErr : Option String
  mkdirErr : String → Int → Option String
  getTaskErr : String → Option String
  loadDag : Except String DAG

/-- The error kinds `Executor.Run`, `Executor.Resume` and the `resume`
command return (each stands for the corresponding `fmt.Errorf` message). -/
inductive ExecError where
  | storeErr (msg : String) : ExecError
  | mkdirFail (msg : String) : ExecError
  | topoErr (msg : String) : ExecError
  | cancelled : ExecError
  | taskFailed (task workflow : String) : ExecError
  | loadErr (msg : String) : ExecError
  | notResumable (runId : String) (status : WorkflowStatus) : ExecError
  | runNotFound (runId : String) : ExecError
  deriving Repr, DecidableEq

/-- `_ = e.RunStore.UpdateTaskRun(tr)`: on store failure the row is left
unwritten and the error is discarded. -/
def applyUpdateTaskRun (env : Env) (st : StoreState) (tr : TaskRun) : StoreState :=
  match env.updateTaskErr tr.name with
  | some _ => st
  | none => { st with taskRuns := storeUpdateTaskRows st.taskRuns tr }

/-- `_ = e.RunStore.Update(wr)` (and the equally discarded bare call). -/
def applyUpdateRun (env : Env) (st : StoreState) (wr : WorkflowRun) : StoreState :=
  match env.updateRunErr with
  | some _ => st
  | none => { st with runs := storeUpdateRunRows st.runs wr }

def logPathOf (runId name : String) (attempt : Int) : String :=
  "logs/" ++ runId ++ "/" ++ name ++ "_" ++ toString attempt ++ ".log"

/-- Result of the per-task attempt loop. -/
inductive TaskOutcome where
  | done (tr : TaskRun) : TaskOutcome
  | failedWorkflow (e : ExecError) : TaskOutcome
  | ioFail (e : ExecError) : TaskOutcome
  deriving Repr, DecidableEq

/-- The attempt loop `for attempt := 1; attempt <= t.Retries+1; attempt++`
shared verbatim by `Run` and `Resume` (part_002 lines 87-153 and 227-293).
`rem` counts the remaining iterations (`(t.Retries+1).toNat` on entry, so
a negative retry budget runs zero iterations and falls through with the
row untouched, exactly like the Go loop).  Each iteration: set the attempt
counter, spawn (`CombinedOutput`), `MkdirAll` (its error is returned
as-is), set the log path (`WriteFile`'s error is ignored), classify the
outcome, persist via the error-discarding updates, then break on success,
return the task-failed error after marking task and run failed when the
budget is exhausted, or retry. -/
def attemptLoop (env : Env) (d : DAG) (wr : WorkflowRun) (t : Task) :
    Nat → Int → TaskRun → ExecState → TaskOutcome × ExecState
  | 0, _, tr, s => (TaskOutcome.done tr, s)
  | rem + 1, attempt, tr, s =>
    let tr1 := { tr with attempts := attempt }
    let s1 := { s with spawns := s.spawns ++ [(t.name, attempt)] }
    match env.mkdirErr t.name attempt with
    | some e => (TaskOutcome.ioFail (ExecError.mkdirFail e), s1)
    | none =>
      let tr2 := { tr1 with logPath := logPathOf wr.id t.name attempt }
      match env.outcome t.name attempt with
      | SpawnOutcome.ok =>
        let tr3 := { tr2 with exitCode := some 0 }
        let s2 := { s1 with store := applyUpdateTaskRun env s1.store tr3 }
        let (now, s3) := tick s2
        let tr4 := { tr3 with status := TaskStatus.success, endedAt := some now }
        let s4 := { s3 with store := applyUpdateTaskRun env s3.store tr4 }
        (TaskOutcome.done tr4, s4)
      | SpawnOutcome.exitErr code msg =>
        let tr3 := { tr2 with exitCode := some code, lastError := msg }
        let s2 := { s1 with store := applyUpdateTaskRun env s1.store tr3 }
        if attempt = t.retries + 1 then
          let (now, s3) := tick s2
          let tr4 := { tr3 with status := TaskStatus.failed, endedAt := some now }
          let s4 := { s3 with store := applyUpdateTaskRun env s3.store tr4 }
          let wr2 := { wr with status := WorkflowStatus.failed, endedAt := some now }
          let s5 := { s4 with store := applyUpdateRun env s4.store wr2 }
          (TaskOutcome.failedWorkflow (ExecError.taskFailed t.name d.name), s5)
        else
          attemptLoop env d wr t rem (attempt + 1) tr3 s2
      | SpawnOutcome.startErr msg =>
        let tr3 := { tr2 with exitCode := some 1, lastError := msg }
        let s2 := { s1 with store := applyUpdateTaskRun env s1.store tr3 }
        if attempt = t.retries + 1 then
          let (now, s3) := tick s2
          let tr4 := { tr3 with status := TaskStatus.failed, endedAt := some now }
          let s4 := { s3 with store := applyUpdateTaskRun env s3.store tr4 }
          let wr2 := { wr with status := WorkflowStatus.failed, endedAt := some now }
          let s5 := { s4 with store := applyUpdateRun env s4.store wr2 }
          (TaskOutcome.failedWorkflow (ExecError.taskFailed t.name d.name), s5)
        else
          attemptLoop env d wr t rem (attempt + 1) tr3 s2

/-- The per-task loop of `Executor.Run` (part_002 lines 59-154) plus the
success epilogue (lines 156-163).  `idx` is the position in the
topological order, used to index the cancellation oracle. -/
def runTaskLoop (env : Env) (d : DAG) (wr : WorkflowRun) :
    List Task → Nat → ExecState → Except ExecError Unit × ExecState
  | [], _, s =>
    let (now, s1) := tick s
    let wr2 := { wr with status := WorkflowStatus.success, endedAt := some now }
    let s2 := { s1 with store := applyUpdateRun env s1.store wr2 }
    (Except.ok (), s2)
  | t :: rest, idx, s =>
    if env.cancelAt idx then
      let (now, s1) := tick s
      let wr2 := { wr with status := WorkflowStatus.failed, endedAt := some now }
      let s2 := { s1 with store := applyUpdateRun env s1.store wr2 }
      (Except.error ExecError.cancelled, s2)
    else
      match env.saveTaskErr t.name with
      | some e => (Except.error (ExecError.storeErr e), s)
      | none =>
        let (now, s1) := tick s
        let tr0 : TaskRun :=
          { id := 0, runId := wr.id, name := t.name, status := TaskStatus.running,
            startedAt := now, endedAt := none, attempts := 0, exitCode := none,
            logPath := "", lastError := "" }
        let (tr1, rows2) := storeSaveTaskRun s1.store.taskRuns tr0
        let s2 := { s1 with store := { s1.store with taskRuns := rows2 } }
        match attemptLoop env d wr t (t.retries + 1).toNat 1 tr1 s2 with
        | (TaskOutcome.done _, s3) => runTaskLoop env d wr rest (idx + 1) s3
        | (TaskOutcome.failedWorkflow e, s3) => (Except.error e, s3)
        | (TaskOutcome.ioFail e, s3) => (Except.error e, s3)

/-- Embedding of `Executor.Run` (part_002 lines 35-164): compute the hash,
insert the run row (`NewWorkflowRun`, status `running`), topologically
sort — on a cycle mark the run failed and return the sort error — then
drive the tasks. -/
def executorRun (env : Env) (d : DAG) (s : ExecState) :
    Except ExecError Unit × ExecState :=
  let dagHash := ComputeHash d
  match env.newRunErr with
  | some e => (Except.error (ExecError.storeErr e), s)
  | none =>
    let (now, s1) := tick s
    let wr : WorkflowRun :=
      { id := env.runId, workflow := d.name, workflowHash := dagHash,
        status := WorkflowStatus.running, startedAt := now, endedAt := none,
        exitCode := none, createdAt := now }
    let s2 := { s1 with store := { s1.store with runs := s1.store.runs ++ [wr] } }
    match TopologicalSort d with
    | Except.error msg =>
      let (now2, s3) := tick s2
      let wr2 := { wr with status := WorkflowStatus.failed, endedAt := some now2 }
      let s4 := { s3 with store := applyUpdateRun env s3.store wr2 }
      (Except.error (ExecError.topoErr msg), s4)
    | Except.ok order => runTaskLoop env d wr order 0 s2

/-- The per-task loop of `Executor.Resume` (part_002 lines 186-294) plus
the success epilogue: `GetTaskRun` first (a non-`ErrNoRows` error is
returned), skip if the existing row is at `success`, then the cancellation
check, row creation only when absent, and the shared attempt loop. -/
def resumeTaskLoop (env : Env) (d : DAG) (wr : WorkflowRun) :
    List Task → Nat → ExecState → Except ExecError Unit × ExecState
  | [], _, s =>
    let (now, s1) := tick s
    let wr2 := { wr with status := WorkflowStatus.success, endedAt := some now }
    let s2 := { s1 with store := applyUpdateRun env s1.store wr2 }
    (Except.ok (), s2)
  | t :: rest, idx, s =>
    match env.getTaskErr t.name with
    | some e => (Except.error (ExecError.storeErr e), s)
    | none =>
      match storeGetTaskRun s.store.taskRuns wr.id t.name with
      | some tr =>
        if tr.status = TaskStatus.success then
          resumeTaskLoop env d wr rest (idx + 1) s
        else
          if env.cancelAt idx then
            let (now, s1) := tick s
            let wr2 := { wr with status := WorkflowStatus.failed, endedAt := some now }
            let s2 := { s1 with store := applyUpdateRun env s1.store wr2 }
            (Except.error ExecError.cancelled, s2)
          else
            match attemptLoop env d wr t (t.retries + 1).toNat 1 tr s with
            | (TaskOutcome.done _, s3) => resumeTaskLoop env d wr rest (idx + 1) s3
            | (TaskOutcome.failedWorkflow e, s3) => (Except.error e, s3)
            | (TaskOutcome.ioFail e, s3) => (Except.error e, s3)
      | none =>
        if env.cancelAt idx then
          let (now, s1) := tick s
          let wr2 := { wr with status := WorkflowStatus.failed, endedAt := some now }
          let s2 := { s1 with store := applyUpdateRun env s1.store wr2 }
          (Except.error ExecError.cancelled, s2)
        else
          match env.saveTaskErr t.name with
          | some e => (Except.error (ExecError.storeErr e), s)
          | none =>
            let (now, s1) := tick s
            let tr0 : TaskRun :=
              { id := 0, runId := wr.id, name := t.name, status := TaskStatus.running,
                startedAt := now, endedAt := none, attempts := 0, exitCode := none,
                logPath := "", lastError := "" }
            let (tr1, rows2) := storeSaveTaskRun s1.store.taskRuns tr0
            let s2 := { s1 with store := { s1.store with taskRuns := rows2 } }
            match attemptLoop env d wr t (t.retries + 1).toNat 1 tr1 s2 with
            | (TaskOutcome.done _, s3) => resumeTaskLoop env d wr rest (idx + 1) s3
            | (TaskOutcome.failedWorkflow e, s3) => (Except.error e, s3)
            | (TaskOutcome.ioFail e, s3) => (Except.error e, s3)

/-- Embedding of `Executor.Resume` (part_002 lines 166-305): load the DAG
by workflow name, topologically sort (marking the run failed on a cycle),
then drive the tasks with the skip check. -/
def executorResume (env : Env) (wr : WorkflowRun) (s : ExecState) :
    Except ExecError Unit × ExecState :=
  match env.loadDag with
  | Except.error msg => (Except.error (ExecError.loadErr msg), s)
  | Except.ok d =>
    match TopologicalSort d with
    | Except.error msg =>
      let (now, s1) := tick s
      let wr2 := { wr with status := WorkflowStatus.failed, endedAt := some now }
      let s2 := { s1 with store := applyUpdateRun env s1.store wr2 }
      (Except.error (ExecError.topoErr msg), s2)
    | Except.ok order => resumeTaskLoop env d wr order 0 s

/-- Embedding of the `resume` command (src/cmd/resume.go lines 34-66):
load the run row, refuse unless its status is `failed`, then hand off to
`Executor.Resume`. -/
def resumeCommand (env : Env) (runId : String) (s : ExecState) :
    Except ExecError Unit × ExecState :=
  match s.store.runs.find? (fun r => r.id == runId) with
  | none => (Except.error (ExecError.runNotFound runId), s)
  | some wr =>
    if wr.status ≠ WorkflowStatus.failed then
      (Except.error (ExecError.notResumable runId wr.status), s)
    else
      executorResume env wr s

/-- The empty machine state a fresh run starts from. -/
def initState : ExecState := ⟨⟨[], []⟩, [], 0⟩

/-- A fault-free oracle: no cancellation, every command exits 0, every
store and filesystem call succeeds. -/
def okEnv : Env :=
  { runId := "run-1", cancelAt := fun _ => false,
    outcome := fun _ _ => SpawnOutcome.ok, newRunErr := none,
    saveTaskErr := fun _ => none, updateTaskErr := fun _ => none,
    updateRunErr := none, mkdirErr := fun _ _ => none,
    getTaskErr := fun _ => none, loadDag := Except.error "not used" }

/-! ### Row-update lemmas (surrogate ids act as primary keys) -/

theorem storeUpdateTaskRows_append_fresh (rows : List TaskRun) (r tr : TaskRun)
    (hid : tr.id = r.id) (hfresh : ∀ q ∈ rows, q.id ≠ r.id) :
    storeUpdateTaskRows (rows ++ [r]) tr = rows ++ [tr] := by
  unfold storeUpdateTaskRows
  rw [List.map_append]
  have h1 : rows.map (fun q => if q.id = tr.id then tr else q) = rows := by
    conv_rhs => rw [← List.map_id rows]
    apply List.map_congr_left
    intro q hq
    rw [if_neg (by rw [hid]; exact hfresh q hq)]
    rfl
  have h2 : [r].map (fun q => if q.id = tr.id then tr else q) = [tr] := by
    rw [List.map_singleton, if_pos hid.symm]
  rw [h1, h2]

theorem storeUpdateRunRows_append_fresh (rows : List WorkflowRun) (r wr : WorkflowRun)
    (hid : wr.id = r.id) (hfresh : ∀ q ∈ rows, q.id ≠ r.id) :
    storeUpdateRunRows (rows ++ [r]) wr = rows ++ [wr] := by
  unfold storeUpdateRunRows
  rw [List.map_append]
  have h1 : rows.map (fun q => if q.id = wr.id then wr else q) = rows := by
    conv_rhs => rw [← List.map_id rows]
    apply List.map_congr_left
    intro q hq
    rw [if_neg (by rw [hid]; exact hfresh q hq)]
    rfl
  have h2 : [r].map (fun q => if q.id = wr.id then wr else q) = [wr] := by
    rw [List.map_singleton, if_pos hid.symm]
  rw [h1, h2]

/-! ### C6: resume refuses a run that is not `failed` -/

/-- C6: when the stored run's status is `pending`, `running` or `success`,
the `resume` command returns the not-resumable error and neither executes a
task nor changes any state (the returned machine state is untouched). -/
theorem c6_resume_refuses_non_failed (env : Env) (runId : String) (s : ExecState)
    (wr : WorkflowRun) (hfind : s.store.runs.find? (fun r => r.id == runId) = some wr)
    (hst : wr.status = WorkflowStatus.pending ∨ wr.status = WorkflowStatus.running ∨
      wr.status = WorkflowStatus.success) :
    resumeCommand env runId s = (Except.error (ExecError.notResumable runId wr.status), s) := by
  unfold resumeCommand
  rw [hfind]
  have hne : wr.status ≠ WorkflowStatus.failed := by
    rcases hst with h | h | h <;> rw [h] <;> intro hc <;> cases hc
  dsimp only
  rw [if_pos hne]

def resumableState : ExecState :=
  ⟨⟨[⟨"r0", "wf", "h", WorkflowStatus.success, 0, some 1, none, 0⟩], []⟩, [], 5⟩

theorem c6_resume_refuses_non_failed_witness :
    resumeCommand okEnv "r0" resumableState
      = (Except.error (ExecError.notResumable "r0" WorkflowStatus.success),
         resumableState) :=
  c6_resume_refuses_non_failed okEnv "r0" resumableState
    ⟨"r0", "wf", "h", WorkflowStatus.success, 0, some 1, none, 0⟩
    (by decide) (Or.inr (Or.inr rfl))

/-! ### C8 and C9 counterexamples -/

def swallowEnv : Env := { okEnv with updateTaskErr := fun _ => some "disk full" }

def oneTaskDAG : DAG := ⟨"wf8", [⟨"a", "echo hi", [], 0⟩]⟩

/-- C8 counterexample: with a store whose `UpdateTaskRun` always fails
("disk full"), `Executor.Run` still spawns the task, ignores every failed
update (the row keeps its freshly-inserted `running`/`attempts=0` values),
marks the run `success` and returns no error — the persistence error is
swallowed, not propagated, and the run is not aborted. -/
theorem c8_counterexample :
    swallowEnv.updateTaskErr "a" = some "disk full" ∧
    (executorRun swallowEnv oneTaskDAG initState).1 = Except.ok () ∧
    (executorRun swallowEnv oneTaskDAG initState).2.spawns = [("a", 1)] ∧
    (executorRun swallowEnv oneTaskDAG initState).2.store.taskRuns.map
        (fun r => (r.name, r.status, r.attempts))
      = [("a", TaskStatus.running, 0)] ∧
    (executorRun swallowEnv oneTaskDAG initState).2.store.runs.map
        (fun r => r.status) = [WorkflowStatus.success] := by
  refine ⟨rfl, rfl, rfl, rfl, rfl⟩

def cyclicDAG : DAG := ⟨"cyc", [⟨"a", "echo a", ["b"], 0⟩, ⟨"b", "echo b", ["a"], 0⟩]⟩

/-- C9 counterexample: `Validate` does report the cycle and the executor
spawns nothing and creates no task rows, but `Executor.Run` inserts the
run row before sorting, so for a cyclic graph a run row *is* created and
persisted (as `failed`) — contradicting "no run row is created or
persisted". -/
theorem c9_counterexample :
    Validate cyclicDAG = some ValidationError.cycle ∧
    (executorRun okEnv cyclicDAG initState).1
      = Except.error (ExecError.topoErr "cycle detected in DAG") ∧
    (executorRun okEnv cyclicDAG initState).2.spawns = [] ∧
    (executorRun okEnv cyclicDAG initState).2.store.taskRuns = [] ∧
    (executorRun okEnv cyclicDAG initState).2.store.runs.map
        (fun r => (r.workflow, r.status, r.endedAt.isSome))
      = [("cyc", WorkflowStatus.failed, true)] := by
  refine ⟨rfl, rfl, rfl, rfl, rfl⟩

/-- C9 amended: for every graph on which `TopologicalSort` fails (in
particular every cyclic graph), `Executor.Run` spawns no process and
creates no task-attempt row, but it does append one run row — persisted
with status `failed` and an end timestamp — before returning the sort
error.  `Validate` itself is pure and persists nothing. -/
theorem c9_amended_cycle_behavior (env : Env) (d : DAG) (s : ExecState) (msg : String)
    (htopo : TopologicalSort d = Except.error msg) (hnew : env.newRunErr = none)
    (hupd : env.updateRunErr = none)
    (hfresh : ∀ r ∈ s.store.runs, r.id ≠ env.runId) :
    (executorRun env d s).1 = Except.error (ExecError.topoErr msg) ∧
    (executorRun env d s).2.spawns = s.spawns ∧
    (executorRun env d s).2.store.taskRuns = s.store.taskRuns ∧
    ∃ wr2, (executorRun env d s).2.store.runs = s.store.runs ++ [wr2] ∧
      wr2.workflow = d.name ∧ wr2.status = WorkflowStatus.failed ∧
      wr2.endedAt.isSome := by
  unfold executorRun
  rw [hnew, htopo]
  simp only [applyUpdateRun, hupd, tick]
  refine ⟨by trivial, by trivial, by trivial,
    ⟨{ id := env.runId, workflow := d.name, workflowHash := ComputeHash d,
       status := WorkflowStatus.failed, startedAt := s.clock,
       endedAt := some (s.clock + 1), exitCode := none, createdAt := s.clock },
     ?_, rfl, rfl, rfl⟩⟩
  exact storeUpdateRunRows_append_fresh s.store.runs _ _ rfl hfresh

/-! ### Exact shape of a first-attempt-success iteration -/

/-- The persisted row left by a task that succeeds on its first attempt,
when its loop iteration starts at clock `c` with `rowId` rows present. -/
def successRow (runId : String) (t : Task) (rowId : Nat) (c : Nat) : TaskRun :=
  { id := rowId, runId := runId, name := t.name, status := TaskStatus.success,
    startedAt := c, endedAt := some (c + 1), attempts := 1, exitCode := some 0,
    logPath := logPathOf runId t.name 1, lastError := "" }

/-- The rows a run of first-attempt successes appends. -/
def successRows (runId : String) : List Task → Nat → Nat → List TaskRun
  | [], _, _ => []
  | t :: ts, rowId, c =>
    successRow runId t rowId c :: successRows runId ts (rowId + 1) (c + 2)

theorem attemptLoop_first_ok (env : Env) (d : DAG) (wr : WorkflowRun) (t : Task)
    (rem : Nat) (tr : TaskRun) (s : ExecState)
    (hmk : env.mkdirErr t.name 1 = none) (hout : env.outcome t.name 1 = SpawnOutcome.ok)
    (hupdT : env.updateTaskErr tr.name = none) :
    attemptLoop env d wr t (rem + 1) 1 tr s
      = (TaskOutcome.done
          { tr with
            attempts := 1
            logPath := logPathOf wr.id t.name 1
            exitCode := some 0
            status := TaskStatus.success
            endedAt := some s.clock },
         ⟨⟨s.store.runs,
           storeUpdateTaskRows
             (storeUpdateTaskRows s.store.taskRuns
               { tr with
                 attempts := 1
                 logPath := logPathOf wr.id t.name 1
                 exitCode := some 0 })
             { tr with
               attempts := 1
               logPath := logPathOf wr.id t.name 1
               exitCode := some 0
               status := TaskStatus.success
               endedAt := some s.clock }⟩,
          s.spawns ++ [(t.name, 1)], s.clock + 1⟩) := by
  simp only [attemptLoop, hmk, hout, applyUpdateTaskRun, hupdT, tick]

theorem runTaskLoop_cons_ok (env : Env) (d : DAG) (wr : WorkflowRun) (t : Task)
    (rest : List Task) (idx : Nat) (s : ExecState)
    (hc : env.cancelAt idx = false) (hsave : env.saveTaskErr t.name = none)
    (hupdT : env.updateTaskErr t.name = none) (hmk : env.mkdirErr t.name 1 = none)
    (hout : env.outcome t.name 1 = SpawnOutcome.ok) (hret : 0 ≤ t.retries)
    (hfresh : ∀ q ∈ s.store.taskRuns, q.id < s.store.taskRuns.length) :
    runTaskLoop env d wr (t :: rest) idx s
      = runTaskLoop env d wr rest (idx + 1)
          { store := { s.store with taskRuns := s.store.taskRuns
              ++ [successRow wr.id t s.store.taskRuns.length s.clock] }
            spawns := s.spawns ++ [(t.name, 1)]
            clock := s.clock + 2 } := by
  have hfr : ∀ q ∈ s.store.taskRuns, q.id ≠ s.store.taskRuns.length :=
    fun q hq => Nat.ne_of_lt (hfresh q hq)
  have hrem : (t.retries + 1).toNat = t.retries.toNat + 1 := by omega
  rw [runTaskLoop]
  rw [if_neg (by rw [hc]; exact Bool.false_ne_true)]
  simp only [hsave, tick, storeSaveTaskRun, hrem]
  rw [attemptLoop_first_ok env d wr t _ _ _ hmk hout hupdT]
  dsimp only
  have h1 : storeUpdateTaskRows
      (s.store.taskRuns ++
        [⟨s.store.taskRuns.length, wr.id, t.name, TaskStatus.running,
          s.clock, none, 0, none, "", ""⟩])
      ⟨s.store.taskRuns.length, wr.id, t.name, TaskStatus.running,
        s.clock, none, 1, some 0, logPathOf wr.id t.name 1, ""⟩
      = s.store.taskRuns ++
        [⟨s.store.taskRuns.length, wr.id, t.name, TaskStatus.running,
          s.clock, none, 1, some 0, logPathOf wr.id t.name 1, ""⟩] :=
    storeUpdateTaskRows_append_fresh _ _ _ rfl hfr
  have h2 : storeUpdateTaskRows
      (s.store.taskRuns ++
        [⟨s.store.taskRuns.length, wr.id, t.name, TaskStatus.running,
          s.clock, none, 1, some 0, logPathOf wr.id t.name 1, ""⟩])
      ⟨s.store.taskRuns.length, wr.id, t.name, TaskStatus.success,
        s.clock, some (s.clock + 1), 1, some 0, logPathOf wr.id t.name 1, ""⟩
      = s.store.taskRuns ++
        [⟨s.store.taskRuns.length, wr.id, t.name, TaskStatus.success,
          s.clock, some (s.clock + 1), 1, some 0, logPathOf wr.id t.name 1, ""⟩] :=
    storeUpdateTaskRows_append_fresh _ _ _ rfl hfr
  rw [h1, h2]
  rfl

theorem runTaskLoop_initial (env : Env) (d : DAG) (wr : WorkflowRun)
    (pre rest : List Task) (idx : Nat) (s : ExecState)
    (hc : ∀ k, k < pre.length → env.cancelAt (idx + k) = false)
    (hok : ∀ t ∈ pre, env.saveTaskErr t.name = none ∧
      env.updateTaskErr t.name = none ∧ env.mkdirErr t.name 1 = none ∧
      env.outcome t.name 1 = SpawnOutcome.ok ∧ 0 ≤ t.retries)
    (hfresh : ∀ q ∈ s.store.taskRuns, q.id < s.store.taskRuns.length) :
    runTaskLoop env d wr (pre ++ rest) idx s
      = runTaskLoop env d wr rest (idx + pre.length)
          ⟨⟨s.store.runs,
            s.store.taskRuns
              ++ successRows wr.id pre s.store.taskRuns.length s.clock⟩,
           s.spawns ++ pre.map (fun t => (t.name, 1)),
           s.clock + 2 * pre.length⟩ := by
  induction pre generalizing idx s with
  | nil =>
    simp only [List.nil_append, successRows, List.append_nil, List.map_nil,
      List.length_nil, Nat.add_zero, Nat.mul_zero]
  | cons t pre ih =>
    have hc0 : env.cancelAt idx = false := by
      have h := hc 0 (by simp)
      rwa [Nat.add_zero] at h
    obtain ⟨hsave, hupdT, hmk, hout, hret⟩ := hok t (List.mem_cons_self t pre)
    rw [List.cons_append,
      runTaskLoop_cons_ok env d wr t (pre ++ rest) idx s hc0 hsave hupdT hmk
        hout hret hfresh]
    rw [ih (idx + 1) _
      (fun k hk => by
        have h := hc (k + 1) (by simpa using Nat.succ_lt_succ hk)
        rwa [show idx + (k + 1) = idx + 1 + k by omega] at h)
      (fun t' ht' => hok t' (List.mem_cons_of_mem t ht'))
      (by
        intro q hq
        rcases List.mem_append.1 hq with hq | hq
        · have := hfresh q hq
          simp only [List.length_append, List.length_cons, List.length_nil]
          omega
        · simp only [List.mem_singleton] at hq
          subst hq
          simp only [successRow, List.length_append, List.length_cons,
            List.length_nil]
          omega)]
    have hidx : idx + 1 + pre.length = idx + (pre.length + 1) := by omega
    have hclock : s.clock + 2 + 2 * pre.length = s.clock + 2 * (pre.length + 1) := by
      omega
    simp only [List.length_cons, List.length_append, List.length_nil, hidx,
      successRows, List.map_cons, List.append_assoc, List.singleton_append,
      hclock]

/-- The attempt ordinals `start, start+1, …, start+n-1` that a failing
task burns through. -/
def attemptSeq (start : Int) : Nat → List Int
  | 0 => []
  | n + 1 => start :: attemptSeq (start + 1) n

theorem attemptLoop_allfail (env : Env) (d : DAG) (wr : WorkflowRun) (t : Task)
    (code : Int → Int) (msg : Int → String)
    (n : Nat) (attempt : Int) (tr : TaskRun) (s : ExecState) (rows0 : List TaskRun)
    (hge : 1 ≤ attempt) (hsum : attempt + n = t.retries + 1)
    (hmk : ∀ a, env.mkdirErr t.name a = none)
    (hout : ∀ a, env.outcome t.name a = SpawnOutcome.exitErr (code a) (msg a))
    (hupdT : env.updateTaskErr tr.name = none) (hupdR : env.updateRunErr = none)
    (hrows : s.store.taskRuns = rows0 ++ [tr]) (hid : tr.id = rows0.length)
    (hfr : ∀ q ∈ rows0, q.id ≠ rows0.length) :
    attemptLoop env d wr t (n + 1) attempt tr s
      = (TaskOutcome.failedWorkflow (ExecError.taskFailed t.name d.name),
         ⟨⟨storeUpdateRunRows s.store.runs
             { wr with status := WorkflowStatus.failed, endedAt := some s.clock },
           rows0 ++
             [{ tr with
                 status := TaskStatus.failed
                 endedAt := some s.clock
                 attempts := t.retries + 1
                 exitCode := some (code (t.retries + 1))
                 logPath := logPathOf wr.id t.name (t.retries + 1)
                 lastError := msg (t.retries + 1) }]⟩,
          s.spawns ++ (attemptSeq attempt (n + 1)).map (fun a => (t.name, a)),
          s.clock + 1⟩) := by
  induction n generalizing attempt tr s with
  | zero =>
    have hat : attempt = t.retries + 1 := by omega
    rw [attemptLoop]
    simp only [hmk, hout, applyUpdateTaskRun, hupdT,
      applyUpdateRun, hupdR, tick, if_pos hat, hrows]
    have hfr1 : ∀ q ∈ rows0, q.id ≠ tr.id := fun q hq => hid ▸ hfr q hq
    have h3 : storeUpdateTaskRows (rows0 ++ [tr])
        { tr with
            attempts := attempt
            logPath := logPathOf wr.id t.name attempt
            exitCode := some (code attempt)
            lastError := msg attempt }
        = rows0 ++
          [{ tr with
              attempts := attempt
              logPath := logPathOf wr.id t.name attempt
              exitCode := some (code attempt)
              lastError := msg attempt }] :=
      storeUpdateTaskRows_append_fresh rows0 tr _ rfl hfr1
    have h4 : storeUpdateTaskRows
        (rows0 ++
          [{ tr with
              attempts := attempt
              logPath := logPathOf wr.id t.name attempt
              exitCode := some (code attempt)
              lastError := msg attempt }])
        { tr with
            status := TaskStatus.failed
            endedAt := some s.clock
            attempts := attempt
            logPath := logPathOf wr.id t.name attempt
            exitCode := some (code attempt)
            lastError := msg attempt }
        = rows0 ++
          [{ tr with
              status := TaskStatus.failed
              endedAt := some s.clock
              attempts := attempt
              logPath := logPathOf wr.id t.name attempt
              exitCode := some (code attempt)
              lastError := msg attempt }] :=
      storeUpdateTaskRows_append_fresh rows0 _ _ rfl hfr1
    rw [h3, h4]
    subst hat
    exact rfl
  | succ m ih =>
    have hne : ¬ attempt = t.retries + 1 := by omega
    rw [attemptLoop]
    simp only [hmk, hout, applyUpdateTaskRun, hupdT,
      if_neg hne, hrows]
    have hfr1 : ∀ q ∈ rows0, q.id ≠ tr.id := fun q hq => hid ▸ hfr q hq
    have h3 : storeUpdateTaskRows (rows0 ++ [tr])
        { tr with
            attempts := attempt
            logPath := logPathOf wr.id t.name attempt
            exitCode := some (code attempt)
            lastError := msg attempt }
        = rows0 ++
          [{ tr with
              attempts := attempt
              logPath := logPathOf wr.id t.name attempt
              exitCode := some (code attempt)
              lastError := msg attempt }] :=
      storeUpdateTaskRows_append_fresh rows0 tr _ rfl hfr1
    rw [h3]
    refine (ih (attempt + 1) _ _ (by omega) (by omega) (by exact hupdT)
      (by exact rfl) (by exact hid)).trans ?_
    simp only [attemptSeq, List.map_cons, List.append_assoc,
      List.singleton_append, List.cons_append, List.nil_append]

theorem successRows_length (runId : String) (pre : List Task) (rowId c : Nat) :
    (successRows runId pre rowId c).length = pre.length := by
  induction pre generalizing rowId c with
  | nil => rfl
  | cons t pre ih => simp [successRows, ih]

theorem successRows_id_lt (runId : String) (pre : List Task) (rowId c : Nat) :
    ∀ q ∈ successRows runId pre rowId c, q.id < rowId + pre.length := by
  induction pre generalizing rowId c with
  | nil => intro q hq; cases hq
  | cons t pre ih =>
    intro q hq
    rcases List.mem_cons.1 hq with hq | hq
    · subst hq
      simp only [successRow, List.length_cons]
      omega
    · have := ih (rowId + 1) (c + 2) q hq
      simp only [List.length_cons]
      omega

/-- C3: a task with retry budget `Retries = N` whose command fails on every
attempt is spawned exactly `N+1` times (ordinals `1..N+1`; `N = 0` gives
exactly one), its row is persisted with `attempts = N+1`, status `failed`
and an end timestamp, the run row is persisted as `failed`, and
`Executor.Run` returns the task-failed error naming the task and the
workflow; no later task in the topological order is started — the spawn
log and the row list end with the failing task. -/
theorem c3_retry_exhaustion (env : Env) (d : DAG) (pre post : List Task)
    (t : Task) (code : Int → Int) (msg : Int → String) (s : ExecState)
    (horder : TopologicalSort d = Except.ok (pre ++ t :: post))
    (hnew : env.newRunErr = none)
    (hcancel : ∀ k, env.cancelAt k = false)
    (hok : ∀ u ∈ pre, env.saveTaskErr u.name = none ∧
      env.updateTaskErr u.name = none ∧ env.mkdirErr u.name 1 = none ∧
      env.outcome u.name 1 = SpawnOutcome.ok ∧ 0 ≤ u.retries)
    (hsave : env.saveTaskErr t.name = none)
    (hupdT : env.updateTaskErr t.name = none)
    (hupdR : env.updateRunErr = none)
    (hmk : ∀ a, env.mkdirErr t.name a = none)
    (hout : ∀ a, env.outcome t.name a = SpawnOutcome.exitErr (code a) (msg a))
    (hret : 0 ≤ t.retries)
    (hfreshT : ∀ q ∈ s.store.taskRuns, q.id < s.store.taskRuns.length)
    (hfreshR : ∀ r ∈ s.store.runs, r.id ≠ env.runId) :
    (executorRun env d s).1 = Except.error (ExecError.taskFailed t.name d.name) ∧
    (executorRun env d s).2.spawns
      = s.spawns ++ pre.map (fun u => (u.name, 1))
          ++ (attemptSeq 1 (t.retries.toNat + 1)).map (fun a => (t.name, a)) ∧
    (executorRun env d s).2.store.taskRuns
      = s.store.taskRuns
          ++ successRows env.runId pre s.store.taskRuns.length (s.clock + 1)
          ++ [⟨s.store.taskRuns.length + pre.length, env.runId, t.name,
               TaskStatus.failed, s.clock + 1 + 2 * pre.length,
               some (s.clock + 1 + 2 * pre.length + 1), t.retries + 1,
               some (code (t.retries + 1)),
               logPathOf env.runId t.name (t.retries + 1),
               msg (t.retries + 1)⟩] ∧
    (executorRun env d s).2.store.runs
      = s.store.runs
          ++ [⟨env.runId, d.name, ComputeHash d, WorkflowStatus.failed,
               s.clock, some (s.clock + 1 + 2 * pre.length + 1), none,
               s.clock⟩] := by
  have hrem : (t.retries + 1).toNat = t.retries.toNat + 1 := by omega
  have hmain : executorRun env d s
      = (Except.error (ExecError.taskFailed t.name d.name),
         ⟨⟨s.store.runs
             ++ [⟨env.runId, d.name, ComputeHash d, WorkflowStatus.failed,
                  s.clock, some (s.clock + 1 + 2 * pre.length + 1), none,
                  s.clock⟩],
           s.store.taskRuns
             ++ successRows env.runId pre s.store.taskRuns.length (s.clock + 1)
             ++ [⟨s.store.taskRuns.length + pre.length, env.runId, t.name,
                  TaskStatus.failed, s.clock + 1 + 2 * pre.length,
                  some (s.clock + 1 + 2 * pre.length + 1), t.retries + 1,
                  some (code (t.retries + 1)),
                  logPathOf env.runId t.name (t.retries + 1),
                  msg (t.retries + 1)⟩]⟩,
          s.spawns ++ pre.map (fun u => (u.name, 1))
            ++ (attemptSeq 1 (t.retries.toNat + 1)).map (fun a => (t.name, a)),
          s.clock + 1 + 2 * pre.length + 1 + 1⟩) := by
    unfold executorRun
    simp only [hnew, tick, horder]
    refine (runTaskLoop_initial env d _ pre (t :: post) 0 _
      (fun k _ => hcancel _) hok (by exact hfreshT)).trans ?_
    dsimp only
    rw [runTaskLoop]
    rw [if_neg (by rw [hcancel]; exact Bool.false_ne_true)]
    simp only [hsave, tick, storeSaveTaskRun, hrem]
    have hfrX : ∀ q ∈ s.store.taskRuns
        ++ successRows env.runId pre s.store.taskRuns.length (s.clock + 1),
        q.id ≠ (s.store.taskRuns
          ++ successRows env.runId pre s.store.taskRuns.length
              (s.clock + 1)).length := by
      intro q hq
      have hlen : (s.store.taskRuns
          ++ successRows env.runId pre s.store.taskRuns.length
              (s.clock + 1)).length
          = s.store.taskRuns.length + pre.length := by
        simp [successRows_length]
      rw [hlen]
      rcases List.mem_append.1 hq with h | h
      · have := hfreshT q h
        omega
      · have := successRows_id_lt env.runId pre _ _ q h
        omega
    have hstep := attemptLoop_allfail env d
      ⟨env.runId, d.name, ComputeHash d, WorkflowStatus.running, s.clock,
        none, none, s.clock⟩
      t code msg t.retries.toNat 1
      ⟨(s.store.taskRuns
          ++ successRows env.runId pre s.store.taskRuns.length
              (s.clock + 1)).length,
        env.runId, t.name, TaskStatus.running, s.clock + 1 + 2 * pre.length,
        none, 0, none, "", ""⟩
      ⟨⟨s.store.runs
          ++ [⟨env.runId, d.name, ComputeHash d, WorkflowStatus.running,
               s.clock, none, none, s.clock⟩],
        (s.store.taskRuns
            ++ successRows env.runId pre s.store.taskRuns.length (s.clock + 1))
          ++ [⟨(s.store.taskRuns
                  ++ successRows env.runId pre s.store.taskRuns.length
                      (s.clock + 1)).length,
               env.runId, t.name, TaskStatus.running,
               s.clock + 1 + 2 * pre.length, none, 0, none, "", ""⟩]⟩,
       s.spawns ++ pre.map (fun u => (u.name, 1)),
       s.clock + 1 + 2 * pre.length + 1⟩
      (s.store.taskRuns
        ++ successRows env.runId pre s.store.taskRuns.length (s.clock + 1))
      (by norm_num) (by omega) hmk hout (by exact hupdT) hupdR rfl rfl hfrX
    rw [hstep]
    dsimp only
    rw [storeUpdateRunRows_append_fresh s.store.runs
      ⟨env.runId, d.name, ComputeHash d, WorkflowStatus.running, s.clock,
        none, none, s.clock⟩
      ⟨env.runId, d.name, ComputeHash d, WorkflowStatus.failed, s.clock,
        some (s.clock + 1 + 2 * pre.length + 1), none, s.clock⟩
      rfl (fun q hq => hfreshR q hq)]
    simp only [List.length_append, successRows_length]
  refine ⟨by rw [hmain], by rw [hmain], by rw [hmain], by rw [hmain]⟩

/-- One task `a` with `retries = 2` whose command always exits 2. -/
def retryDAG : DAG := ⟨"wf", [⟨"a", "false", [], 2⟩]⟩

def retryEnv : Env :=
  { okEnv with outcome := fun _ _ => SpawnOutcome.exitErr 2 "boom" }

theorem c3_retry_exhaustion_witness :
    (executorRun retryEnv retryDAG initState).1
      = Except.error (ExecError.taskFailed "a" "wf") ∧
    (executorRun retryEnv retryDAG initState).2.spawns
      = [("a", 1), ("a", 2), ("a", 3)] ∧
    (executorRun retryEnv retryDAG initState).2.store.taskRuns
      = [⟨0, "run-1", "a", TaskStatus.failed, 1, some 2, 3, some 2,
          logPathOf "run-1" "a" 3, "boom"⟩] ∧
    (executorRun retryEnv retryDAG initState).2.store.runs
      = [⟨"run-1", "wf", ComputeHash retryDAG, WorkflowStatus.failed, 0,
          some 2, none, 0⟩] :=
  c3_retry_exhaustion retryEnv retryDAG [] [] ⟨"a", "false", [], 2⟩
    (fun _ => 2) (fun _ => "boom") initState rfl rfl (fun _ => rfl)
    (by intro u hu; cases hu) rfl rfl rfl (fun _ => rfl) (fun _ => rfl)
    (by decide) (by intro q hq; cases hq) (by intro r hr; cases hr)

/-- C7: the cancellation token is checked before each task; if it fires
before the task at position `k` of the topological order (in particular
`k = 0`: before any task), `Executor.Run` creates no attempt row and
spawns no process for that task or any later one, persists the run row
with status `failed` and an end timestamp, and returns the cancellation
error. -/
theorem c7_cancellation (env : Env) (d : DAG) (pre rest : List Task)
    (t : Task) (s : ExecState)
    (horder : TopologicalSort d = Except.ok (pre ++ t :: rest))
    (hnew : env.newRunErr = none)
    (hc : ∀ k, k < pre.length → env.cancelAt k = false)
    (hck : env.cancelAt pre.length = true)
    (hok : ∀ u ∈ pre, env.saveTaskErr u.name = none ∧
      env.updateTaskErr u.name = none ∧ env.mkdirErr u.name 1 = none ∧
      env.outcome u.name 1 = SpawnOutcome.ok ∧ 0 ≤ u.retries)
    (hupdR : env.updateRunErr = none)
    (hfreshT : ∀ q ∈ s.store.taskRuns, q.id < s.store.taskRuns.length)
    (hfreshR : ∀ r ∈ s.store.runs, r.id ≠ env.runId) :
    (executorRun env d s).1 = Except.error ExecError.cancelled ∧
    (executorRun env d s).2.spawns
      = s.spawns ++ pre.map (fun u => (u.name, 1)) ∧
    (executorRun env d s).2.store.taskRuns
      = s.store.taskRuns
          ++ successRows env.runId pre s.store.taskRuns.length (s.clock + 1) ∧
    (executorRun env d s).2.store.runs
      = s.store.runs
          ++ [⟨env.runId, d.name, ComputeHash d, WorkflowStatus.failed,
               s.clock, some (s.clock + 1 + 2 * pre.length), none,
               s.clock⟩] := by
  have hmain : executorRun env d s
      = (Except.error ExecError.cancelled,
         ⟨⟨s.store.runs
             ++ [⟨env.runId, d.name, ComputeHash d, WorkflowStatus.failed,
                  s.clock, some (s.clock + 1 + 2 * pre.length), none,
                  s.clock⟩],
           s.store.taskRuns
             ++ successRows env.runId pre s.store.taskRuns.length
                 (s.clock + 1)⟩,
          s.spawns ++ pre.map (fun u => (u.name, 1)),
          s.clock + 1 + 2 * pre.length + 1⟩) := by
    unfold executorRun
    simp only [hnew, tick, horder]
    refine (runTaskLoop_initial env d _ pre (t :: rest) 0 _
      (fun k hk => by rw [Nat.zero_add]; exact hc k hk) hok
      (by exact hfreshT)).trans ?_
    dsimp only
    rw [runTaskLoop]
    rw [if_pos (by rw [Nat.zero_add]; exact hck)]
    simp only [applyUpdateRun, hupdR, tick]
    rw [storeUpdateRunRows_append_fresh s.store.runs
      ⟨env.runId, d.name, ComputeHash d, WorkflowStatus.running, s.clock,
        none, none, s.clock⟩
      ⟨env.runId, d.name, ComputeHash d, WorkflowStatus.failed, s.clock,
        some (s.clock + 1 + 2 * pre.length), none, s.clock⟩
      rfl (fun q hq => hfreshR q hq)]
  refine ⟨by rw [hmain], by rw [hmain], by rw [hmain], by rw [hmain]⟩

def cancelEnv : Env := { okEnv with cancelAt := fun _ => true }

theorem c7_cancellation_witness :
    (executorRun cancelEnv oneTaskDAG initState).1
      = Except.error ExecError.cancelled ∧
    (executorRun cancelEnv oneTaskDAG initState).2.spawns = [] ∧
    (executorRun cancelEnv oneTaskDAG initState).2.store.taskRuns = [] ∧
    (executorRun cancelEnv oneTaskDAG initState).2.store.runs
      = [⟨"run-1", oneTaskDAG.name, ComputeHash oneTaskDAG,
          WorkflowStatus.failed, 0, some 1, none, 0⟩] :=
  c7_cancellation cancelEnv oneTaskDAG [] []
    ⟨"a", "echo hi", [], 0⟩ initState rfl rfl
    (fun k hk => absurd hk (by simp)) rfl
    (by intro u hu; cases hu) rfl
    (by intro q hq; cases hq) (by intro r hr; cases hr)

/-- C8 amended: store errors from row *creation* do abort the run —
when `SaveTaskRun` fails for the task at any position of the order,
`Executor.Run` stops immediately, returns the store error, spawns no
process for that task or any later one, and creates no further rows.
(The counterexample shows errors from `UpdateTaskRun` and the final
`Update` are discarded, so the original claim is false in general.) -/
theorem c8_amended_save_error_propagates (env : Env) (d : DAG)
    (pre post : List Task) (t : Task) (s : ExecState) (e : String)
    (horder : TopologicalSort d = Except.ok (pre ++ t :: post))
    (hnew : env.newRunErr = none)
    (hcancel : ∀ k, env.cancelAt k = false)
    (hok : ∀ u ∈ pre, env.saveTaskErr u.name = none ∧
      env.updateTaskErr u.name = none ∧ env.mkdirErr u.name 1 = none ∧
      env.outcome u.name 1 = SpawnOutcome.ok ∧ 0 ≤ u.retries)
    (hsave : env.saveTaskErr t.name = some e)
    (hfreshT : ∀ q ∈ s.store.taskRuns, q.id < s.store.taskRuns.length) :
    (executorRun env d s).1 = Except.error (ExecError.storeErr e) ∧
    (executorRun env d s).2.spawns
      = s.spawns ++ pre.map (fun u => (u.name, 1)) ∧
    (executorRun env d s).2.store.taskRuns
      = s.store.taskRuns
          ++ successRows env.runId pre s.store.taskRuns.length
              (s.clock + 1) := by
  have hmain : executorRun env d s
      = (Except.error (ExecError.storeErr e),
         ⟨⟨s.store.runs
             ++ [⟨env.runId, d.name, ComputeHash d, WorkflowStatus.running,
                  s.clock, none, none, s.clock⟩],
           s.store.taskRuns
             ++ successRows env.runId pre s.store.taskRuns.length
                 (s.clock + 1)⟩,
          s.spawns ++ pre.map (fun u => (u.name, 1)),
          s.clock + 1 + 2 * pre.length⟩) := by
    unfold executorRun
    simp only [hnew, tick, horder]
    refine (runTaskLoop_initial env d _ pre (t :: post) 0 _
      (fun k _ => hcancel _) hok (by exact hfreshT)).trans ?_
    dsimp only
    rw [runTaskLoop]
    rw [if_neg (by rw [hcancel]; exact Bool.false_ne_true)]
    simp only [hsave]
  refine ⟨by rw [hmain], by rw [hmain], by rw [hmain]⟩

def saveFailEnv : Env :=
  { okEnv with saveTaskErr := fun _ => some "disk full" }

theorem c8_amended_save_error_propagates_witness :
    (executorRun saveFailEnv oneTaskDAG initState).1
      = Except.error (ExecError.storeErr "disk full") ∧
    (executorRun saveFailEnv oneTaskDAG initState).2.spawns = [] ∧
    (executorRun saveFailEnv oneTaskDAG initState).2.store.taskRuns = [] :=
  c8_amended_save_error_propagates saveFailEnv oneTaskDAG [] []
    ⟨"a", "echo hi", [], 0⟩ initState "disk full" rfl rfl (fun _ => rfl)
    (by intro u hu; cases hu) rfl (by intro q hq; cases hq)

/-- C5: during `Resume`, a task whose stored attempt row for
`(run_id, name)` has status `success` is skipped — no process is spawned
and the machine state (rows included) is completely untouched; a task
whose row exists with a non-`success` status is re-executed in place (a
process is spawned and the existing row is updated), and a task with no
row gets a fresh row created and is executed. -/
theorem c5_resume_skip (env : Env) (d : DAG) (wr : WorkflowRun) (t : Task)
    (rest : List Task) (idx : Nat) (s : ExecState)
    (hget : env.getTaskErr t.name = none) :
    (∀ tr, storeGetTaskRun s.store.taskRuns wr.id t.name = some tr →
      tr.status = TaskStatus.success →
      resumeTaskLoop env d wr (t :: rest) idx s
        = resumeTaskLoop env d wr rest (idx + 1) s) ∧
    (∀ tr, storeGetTaskRun s.store.taskRuns wr.id t.name = some tr →
      ¬ tr.status = TaskStatus.success →
      env.cancelAt idx = false →
      env.mkdirErr t.name 1 = none →
      env.outcome t.name 1 = SpawnOutcome.ok →
      env.updateTaskErr tr.name = none →
      0 ≤ t.retries →
      resumeTaskLoop env d wr (t :: rest) idx s
        = resumeTaskLoop env d wr rest (idx + 1)
            ⟨⟨s.store.runs,
              storeUpdateTaskRows
                (storeUpdateTaskRows s.store.taskRuns
                  { tr with
                    attempts := 1
                    logPath := logPathOf wr.id t.name 1
                    exitCode := some 0 })
                { tr with
                  attempts := 1
                  logPath := logPathOf wr.id t.name 1
                  exitCode := some 0
                  status := TaskStatus.success
                  endedAt := some s.clock }⟩,
             s.spawns ++ [(t.name, 1)], s.clock + 1⟩) ∧
    (storeGetTaskRun s.store.taskRuns wr.id t.name = none →
      env.cancelAt idx = false →
      env.saveTaskErr t.name = none →
      env.mkdirErr t.name 1 = none →
      env.outcome t.name 1 = SpawnOutcome.ok →
      env.updateTaskErr t.name = none →
      0 ≤ t.retries →
      (∀ q ∈ s.store.taskRuns, q.id < s.store.taskRuns.length) →
      resumeTaskLoop env d wr (t :: rest) idx s
        = resumeTaskLoop env d wr rest (idx + 1)
            ⟨⟨s.store.runs,
              s.store.taskRuns
                ++ [successRow wr.id t s.store.taskRuns.length s.clock]⟩,
             s.spawns ++ [(t.name, 1)], s.clock + 2⟩) := by
  refine ⟨?_, ?_, ?_⟩
  · intro tr htr hsucc
    rw [resumeTaskLoop]
    simp only [hget, htr, if_pos hsucc]
  · intro tr htr hne hc hmk hout hupdT hret
    have hrem : (t.retries + 1).toNat = t.retries.toNat + 1 := by omega
    have hcb : ¬ (env.cancelAt idx = true) := by
      rw [hc]; exact Bool.false_ne_true
    rw [resumeTaskLoop]
    simp only [hget, htr, if_neg hne, if_neg hcb, hrem]
    rw [attemptLoop_first_ok env d wr t t.retries.toNat tr s hmk hout hupdT]
  · intro hnone hc hsave hmk hout hupdT hret hfresh
    have hrem : (t.retries + 1).toNat = t.retries.toNat + 1 := by omega
    have hcb : ¬ (env.cancelAt idx = true) := by
      rw [hc]; exact Bool.false_ne_true
    have hfr : ∀ q ∈ s.store.taskRuns, q.id ≠ s.store.taskRuns.length :=
      fun q hq => Nat.ne_of_lt (hfresh q hq)
    rw [resumeTaskLoop]
    simp only [hget, hnone, if_neg hcb, hsave, tick,
      storeSaveTaskRun, hrem]
    rw [attemptLoop_first_ok env d wr t _ _ _ hmk hout hupdT]
    dsimp only
    have h1 : storeUpdateTaskRows
        (s.store.taskRuns ++
          [⟨s.store.taskRuns.length, wr.id, t.name, TaskStatus.running,
            s.clock, none, 0, none, "", ""⟩])
        ⟨s.store.taskRuns.length, wr.id, t.name, TaskStatus.running,
          s.clock, none, 1, some 0, logPathOf wr.id t.name 1, ""⟩
        = s.store.taskRuns ++
          [⟨s.store.taskRuns.length, wr.id, t.name, TaskStatus.running,
            s.clock, none, 1, some 0, logPathOf wr.id t.name 1, ""⟩] :=
      storeUpdateTaskRows_append_fresh _ _ _ rfl hfr
    have h2 : storeUpdateTaskRows
        (s.store.taskRuns ++
          [⟨s.store.taskRuns.length, wr.id, t.name, TaskStatus.running,
            s.clock, none, 1, some 0, logPathOf wr.id t.name 1, ""⟩])
        ⟨s.store.taskRuns.length, wr.id, t.name, TaskStatus.success,
          s.clock, some (s.clock + 1), 1, some 0, logPathOf wr.id t.name 1,
          ""⟩
        = s.store.taskRuns ++
          [⟨s.store.taskRuns.length, wr.id, t.name, TaskStatus.success,
            s.clock, some (s.clock + 1), 1, some 0,
            logPathOf wr.id t.name 1, ""⟩] :=
      storeUpdateTaskRows_append_fresh _ _ _ rfl hfr
    rw [h1, h2]
    rfl

def resumeWr : WorkflowRun :=
  ⟨"run-1", "wf8", "h", WorkflowStatus.failed, 0, none, none, 0⟩

def successRowA : TaskRun :=
  ⟨0, "run-1", "a", TaskStatus.success, 0, some 1, 1, some 0, "", ""⟩

def failedRowB : TaskRun :=
  ⟨0, "run-1", "b", TaskStatus.failed, 0, some 1, 1, some 1, "lp", "err"⟩

theorem c5_resume_skip_witness :
    (resumeTaskLoop okEnv oneTaskDAG resumeWr [⟨"a", "echo hi", [], 0⟩] 0
        ⟨⟨[], [successRowA]⟩, [], 7⟩
      = resumeTaskLoop okEnv oneTaskDAG resumeWr [] 1
        ⟨⟨[], [successRowA]⟩, [], 7⟩) ∧
    (resumeTaskLoop okEnv oneTaskDAG resumeWr [⟨"b", "cmd", [], 0⟩] 0
        ⟨⟨[], [failedRowB]⟩, [], 0⟩
      = resumeTaskLoop okEnv oneTaskDAG resumeWr [] 1
        ⟨⟨[], [⟨0, "run-1", "b", TaskStatus.success, 0, some 0, 1, some 0,
               logPathOf "run-1" "b" 1, "err"⟩]⟩, [("b", 1)], 1⟩) ∧
    (resumeTaskLoop okEnv oneTaskDAG resumeWr [⟨"b", "cmd", [], 0⟩] 0
        ⟨⟨[], []⟩, [], 0⟩
      = resumeTaskLoop okEnv oneTaskDAG resumeWr [] 1
        ⟨⟨[], [successRow "run-1" ⟨"b", "cmd", [], 0⟩ 0 0]⟩,
         [("b", 1)], 2⟩) :=
  ⟨(c5_resume_skip okEnv oneTaskDAG resumeWr ⟨"a", "echo hi", [], 0⟩ [] 0
      ⟨⟨[], [successRowA]⟩, [], 7⟩ rfl).1 successRowA rfl rfl,
   (c5_resume_skip okEnv oneTaskDAG resumeWr ⟨"b", "cmd", [], 0⟩ [] 0
      ⟨⟨[], [failedRowB]⟩, [], 0⟩ rfl).2.1 failedRowB rfl (by decide) rfl
     rfl rfl rfl (by decide),
   (c5_resume_skip okEnv oneTaskDAG resumeWr ⟨"b", "cmd", [], 0⟩ [] 0
      ⟨⟨[], []⟩, [], 0⟩ rfl).2.2 rfl rfl rfl rfl rfl rfl (by decide)
     (by intro q hq; cases hq)⟩

theorem c9_amended_cycle_behavior_witness :
    TopologicalSort cyclicDAG = Except.error "cycle detected in DAG" ∧
    (executorRun okEnv cyclicDAG initState).1
      = Except.error (ExecError.topoErr "cycle detected in DAG") ∧
    (executorRun okEnv cyclicDAG initState).2.spawns = initState.spawns ∧
    (executorRun okEnv cyclicDAG initState).2.store.taskRuns
      = initState.store.taskRuns ∧
    ∃ wr2, (executorRun okEnv cyclicDAG initState).2.store.runs
        = initState.store.runs ++ [wr2] ∧
      wr2.workflow = cyclicDAG.name ∧ wr2.status = WorkflowStatus.failed ∧
      wr2.endedAt.isSome :=
  ⟨rfl, c9_amended_cycle_behavior okEnv cyclicDAG initState "cycle detected in DAG"
    rfl rfl rfl (by intro r hr; cases hr)⟩

end Workflow
